import Mathlib

/-!
Verification development for the restricted arithmetic expression evaluator of
`src/scientific.py` (a Streamlit scientific-calculator app).  The evaluator is
`safe_eval`: it rewrites `^` to `**`, desugars postfix factorial notation into
`factorial(...)` calls by backward character scanning, parses the result with
the host language expression grammar in `eval` mode, and walks the tree with
`EvalVisitor.visit` against the whitelist tables `ALLOWED_OPERATORS` and
`MATH_FUNCS`.

Modelling conventions:
* Machine numbers are idealised: integers as `ℤ`, floats as exact `ℚ` tagged
  with a float marker (the claims under verification exercise only values on
  which IEEE float64 arithmetic is exact).
* Exceptions raised by the source become `Except` errors; each constructor of
  `EvalErr` corresponds to one exception class or raise site of the source.
* The transcendental library functions (`math.sin`, `math.sqrt`, ...) have no
  computable rational semantics; the evaluator is parametrised over an
  `Oracle` supplying their interpretations, and every theorem about results
  that do not depend on them quantifies over all oracles.
-/

namespace Scientific

attribute [local semireducible] Rat.add Rat.mul Rat.sub Rat.inv

/-- Classified failure outcomes of `safe_eval`.  Constructors map one-to-one to
the exception classes / raise sites of the source: `syntaxError` is a
`SyntaxError` escaping `ast.parse`; `opNotAllowed` the two
`"... not allowed"` raises for operators; `restrictedCall` the
`"Function calls are restricted"` raise; `nameNotAllowed` the
`"Name ... is not allowed"` raise; `elementNotAllowed` the final
`"Expression element ... not allowed"` raise; `zeroDivision` a
`ZeroDivisionError`; `typeError` a `TypeError` (wrong arity, non-numeric
operand, calling a constant, factorial of a float); `valueError` a
`ValueError` raised inside a math-library function. -/
inductive EvalErr where
  | syntaxError
  | opNotAllowed
  | restrictedCall
  | nameNotAllowed (n : String)
  | elementNotAllowed
  | zeroDivision
  | typeError
  | valueError
deriving DecidableEq, Repr

/-- Runtime values of the evaluator.  The visitor can return ints, floats,
strings, booleans and `None` (the `Constant` branch returns `node.value`
verbatim), and bare whitelisted names return the table entry itself, i.e. a
function object, modelled as `func` tagged with the function name. -/
inductive Value where
  | int (n : ℤ)
  | float (q : ℚ)
  | str (s : String)
  | bool (b : Bool)
  | noneV
  | func (name : String)
deriving DecidableEq, Repr

deriving instance DecidableEq for Except

/-- Interpretation of the irrational-valued math-library functions reachable
from `MATH_FUNCS`.  `logBase` is two-argument `math.log`; `rpow` is float
power with a non-integral exponent.  Each may fail (domain errors are
`ValueError`, overflow `OverflowError` — surfaced as whatever `EvalErr` the
oracle chooses). -/
structure Oracle where
  sin : ℚ → Except EvalErr ℚ
  cos : ℚ → Except EvalErr ℚ
  tan : ℚ → Except EvalErr ℚ
  asin : ℚ → Except EvalErr ℚ
  acos : ℚ → Except EvalErr ℚ
  atan : ℚ → Except EvalErr ℚ
  sqrt : ℚ → Except EvalErr ℚ
  ln : ℚ → Except EvalErr ℚ
  log10 : ℚ → Except EvalErr ℚ
  logBase : ℚ → ℚ → Except EvalErr ℚ
  rpow : ℚ → ℚ → Except EvalErr ℚ

/-- Arbitrary fixed interpretation of the math-library functions, used only to
state closed concrete facts whose truth is oracle-independent (the
accompanying universally quantified theorems show the independence). -/
def oracle0 : Oracle where
  sin := fun _ => .ok 0
  cos := fun _ => .ok 0
  tan := fun _ => .ok 0
  asin := fun _ => .ok 0
  acos := fun _ => .ok 0
  atan := fun _ => .ok 0
  sqrt := fun _ => .ok 0
  ln := fun _ => .ok 0
  log10 := fun _ => .ok 0
  logBase := fun _ _ => .ok 0
  rpow := fun _ _ => .ok 0

/-- Exact rational value of the IEEE-754 double `math.pi`. -/
def piFloat : ℚ := 884279719003555 / 281474976710656

/-- Exact rational value of the IEEE-754 double `math.e`. -/
def eFloat : ℚ := 6121026514868073 / 2251799813685248

/-- An entry of the `MATH_FUNCS` table: either a callable or a numeric
constant (`pi`, `e` are the float constants). -/
inductive Entry where
  | fn
  | constant (v : ℚ)
deriving DecidableEq, Repr

/-- The `MATH_FUNCS` whitelist table of `src/scientific.py`: the callable
names and the two float constants. -/
def MATH_FUNCS : String → Option Entry
  | "sin" => some .fn
  | "cos" => some .fn
  | "tan" => some .fn
  | "asin" => some .fn
  | "acos" => some .fn
  | "atan" => some .fn
  | "sqrt" => some .fn
  | "log" => some .fn
  | "ln" => some .fn
  | "log10" => some .fn
  | "abs" => some .fn
  | "fact" => some .fn
  | "factorial" => some .fn
  | "pow" => some .fn
  | "pi" => some (.constant piFloat)
  | "e" => some (.constant eFloat)
  | _ => Option.none

/-! ## The desugaring pass

`safe_eval` first runs `expr = expr.replace('^', '**')` and then a left-to-right
character loop rewriting each `!` by backward-scanning the already-emitted
output `out`. -/

/-- Single-character replacement `str.replace` with pattern `^` and
replacement `**`. -/
def replaceCaret (l : List Char) : List Char :=
  l.flatMap fun c => if c = '^' then ['*', '*'] else [c]

/-- Characters the backward scan of the non-parenthesis branch accepts:
`out[k].isalnum() or out[k] == '.' or out[k] == '_'` (alphanumerics modelled as
ASCII). -/
def tokChar (c : Char) : Bool :=
  c.isAlphanum || c = '.' || c = '_'

/-- Backward scan for the matching `(` of the final `)`, tracking nesting
depth exactly as the source loop does: scanning indices downward from `k`,
incrementing depth on `)`, decrementing on `(`, stopping when the depth
returns to zero.  `depth` is the depth before processing index `k`.  Returns
the index of the matching `(`, or `none` when the scan runs off the front of
the string (the source leaves `k = -1` in that case). -/
def findOpenIdx (out : List Char) : ℕ → ℕ → Option ℕ
  | depth, 0 =>
    match out.get? 0 with
    | some '(' => if depth = 1 then some 0 else Option.none
    | _ => Option.none
  | depth, k + 1 =>
    match out.get? (k + 1) with
    | Option.none => Option.none
    | some c =>
      if c = ')' then findOpenIdx out (depth + 1) k
      else if c = '(' then
        (if depth = 1 then some (k + 1) else findOpenIdx out (depth - 1) k)
      else findOpenIdx out depth k

/-- One step of the desugaring loop: `out` is the already-emitted output, `c`
the next input character.  A `!` rewrites `out`; every other character is
appended.  In the parenthesis branch, when the backward scan runs off the
front (`k = -1`) the source slices `out[-1:j+1]` and `out[:-1]`, which is the
same as a match at the last index, hence the `getD (out.length - 1)`. -/
def desugarStep (out : List Char) (c : Char) : List Char :=
  if c = '!' then
    if out.getLast? = some ')' then
      let k := (findOpenIdx out 0 (out.length - 1)).getD (out.length - 1)
      out.take k ++ "factorial".data ++ out.drop k
    else
      let tk := (out.reverse.takeWhile tokChar).reverse
      let pre := (out.reverse.dropWhile tokChar).reverse
      pre ++ "factorial(".data ++ tk ++ [')']
  else out ++ [c]

/-- The full character loop of `safe_eval` over the caret-replaced input. -/
def desugarChars (l : List Char) : List Char :=
  (replaceCaret l).foldl desugarStep []

/-- The preprocessing (desugaring) stage of `safe_eval`: `^` replacement
followed by the factorial rewriting loop. -/
def desugar (s : String) : String :=
  ⟨desugarChars s.data⟩

/-! ## Lexing

`safe_eval` hands the desugared string to the host parser (`ast.parse` in
`eval` mode).  We embed that parser for the fragment the whitelist grammar can
reach: number literals, names, string literals, the arithmetic operators,
parentheses, argument lists, attribute access and subscripting.  Constructs
outside this fragment fail at parse time (`syntaxError`), as a `SyntaxError`
from `ast.parse` does. -/

/-- Tokens of the expression fragment. -/
inductive Tok where
  | intTok (n : ℕ)
  | floatTok (q : ℚ)
  | nameTok (s : String)
  | strTok (s : String)
  | plus
  | minus
  | star
  | slash
  | dslash
  | percent
  | dstar
  | lparen
  | rparen
  | comma
  | dot
  | lbrack
  | rbrack
deriving DecidableEq, Repr

/-- Characters an identifier may continue with (ASCII model of the host
language identifier rules). -/
def nameChar (c : Char) : Bool :=
  c.isAlphanum || c = '_'

/-- Maximal run of decimal digits, returned as digit values plus the rest. -/
def lexDigits (l : List Char) : List ℕ × List Char :=
  ((l.takeWhile Char.isDigit).map fun c => c.toNat - 48, l.dropWhile Char.isDigit)

/-- Value of a big-endian digit list. -/
def natOfDigits (ds : List ℕ) : ℕ :=
  ds.foldl (fun a d => 10 * a + d) 0

/-- Prepend a token to a lexing result. -/
def consTok (t : Tok) : Except EvalErr (List Tok) → Except EvalErr (List Tok)
  | .ok ts => .ok (t :: ts)
  | .error e => .error e

/-- Fuelled tokenizer.  A decimal integer literal with a leading zero and a
nonzero value is rejected, as the host tokenizer rejects it. -/
def tokenizeAux : ℕ → List Char → Except EvalErr (List Tok)
  | 0, _ => .error .syntaxError
  | _ + 1, [] => .ok []
  | fuel + 1, c :: rest =>
    if c = ' ' ∨ c = '\t' then tokenizeAux fuel rest
    else if c.isDigit then
      let ds := lexDigits (c :: rest)
      if ds.2.head? = some '.' then
        let fs := lexDigits ds.2.tail
        let q : ℚ := (natOfDigits ds.1 : ℚ) + (natOfDigits fs.1 : ℚ) / (10 : ℚ) ^ fs.1.length
        consTok (Tok.floatTok q) (tokenizeAux fuel fs.2)
      else
        if ds.1.head? = some 0 ∧ natOfDigits ds.1 ≠ 0 then .error .syntaxError
        else consTok (Tok.intTok (natOfDigits ds.1)) (tokenizeAux fuel ds.2)
    else if c.isAlpha ∨ c = '_' then
      let nm := (c :: rest).takeWhile nameChar
      consTok (Tok.nameTok ⟨nm⟩) (tokenizeAux fuel ((c :: rest).dropWhile nameChar))
    else if c = '\x27' ∨ c = '"' then
      let s := rest.takeWhile (· ≠ c)
      if (rest.dropWhile (· ≠ c)) = [] then .error .syntaxError
      else consTok (Tok.strTok ⟨s⟩) (tokenizeAux fuel (rest.dropWhile (· ≠ c)).tail)
    else if c = '.' then
      if rest.head?.any Char.isDigit then
        let fs := lexDigits rest
        let q : ℚ := (natOfDigits fs.1 : ℚ) / (10 : ℚ) ^ fs.1.length
        consTok (Tok.floatTok q) (tokenizeAux fuel fs.2)
      else consTok Tok.dot (tokenizeAux fuel rest)
    else if c = '*' then
      if rest.head? = some '*' then consTok Tok.dstar (tokenizeAux fuel rest.tail)
      else consTok Tok.star (tokenizeAux fuel rest)
    else if c = '/' then
      if rest.head? = some '/' then consTok Tok.dslash (tokenizeAux fuel rest.tail)
      else consTok Tok.slash (tokenizeAux fuel rest)
    else if c = '+' then consTok Tok.plus (tokenizeAux fuel rest)
    else if c = '-' then consTok Tok.minus (tokenizeAux fuel rest)
    else if c = '%' then consTok Tok.percent (tokenizeAux fuel rest)
    else if c = '(' then consTok Tok.lparen (tokenizeAux fuel rest)
    else if c = ')' then consTok Tok.rparen (tokenizeAux fuel rest)
    else if c = ',' then consTok Tok.comma (tokenizeAux fuel rest)
    else if c = '[' then consTok Tok.lbrack (tokenizeAux fuel rest)
    else if c = ']' then consTok Tok.rbrack (tokenizeAux fuel rest)
    else .error .syntaxError

/-- Tokenizer over a character list. -/
def tokenize (l : List Char) : Except EvalErr (List Tok) :=
  tokenizeAux (l.length + 1) l

/-! ## Parsing

The host expression grammar restricted to the reachable fragment, lowest to
highest precedence: additive (`+ -`, left associative), multiplicative
(`* / % //`, left associative), unary prefix (`+ -`), power (`**`, right
associative, whose left operand is a primary and whose right operand is a
unary item), and primaries (atoms followed by call / attribute / subscript
trailers). -/

/-- Binary operator kinds present in `ALLOWED_OPERATORS`. -/
inductive BinK where
  | add
  | sub
  | mul
  | div
  | mod
  | floordiv
  | pow
deriving DecidableEq, Repr

/-- Unary operator kinds present in `ALLOWED_OPERATORS`. -/
inductive UnK where
  | neg
  | pos
deriving DecidableEq, Repr

/-- Abstract syntax trees of the embedded fragment, mirroring the host node
kinds the visitor distinguishes: constants (int / float / string / bool /
`None`), names, binary and unary operations, calls (with an arbitrary callee
expression, as in the source), attribute access and subscripting. -/
inductive Ast where
  | intLit (n : ℤ)
  | floatLit (q : ℚ)
  | strLit (s : String)
  | boolLit (b : Bool)
  | noneLit
  | name (s : String)
  | binop (k : BinK) (a b : Ast)
  | unop (k : UnK) (a : Ast)
  | call (f : Ast) (args : List Ast)
  | attr (e : Ast) (fld : String)
  | subscript (e : Ast) (idx : Ast)

/-- Result of a sub-parser: a node plus the unconsumed tokens. -/
abbrev PRes := Except EvalErr (Ast × List Tok)

mutual

/-- Additive level: a term followed by a `+`/`-` chain. -/
def parseArith : ℕ → List Tok → PRes
  | 0, _ => .error .syntaxError
  | fuel + 1, toks =>
    match parseTerm fuel toks with
    | .error e => .error e
    | .ok (a, r) => parseArithLoop fuel a r

/-- Left-associative `+`/`-` chain continuation. -/
def parseArithLoop : ℕ → Ast → List Tok → PRes
  | 0, _, _ => .error .syntaxError
  | fuel + 1, a, toks =>
    match toks with
    | .plus :: r =>
      match parseTerm fuel r with
      | .error e => .error e
      | .ok (b, r2) => parseArithLoop fuel (.binop .add a b) r2
    | .minus :: r =>
      match parseTerm fuel r with
      | .error e => .error e
      | .ok (b, r2) => parseArithLoop fuel (.binop .sub a b) r2
    | _ => .ok (a, toks)

/-- Multiplicative level: a factor followed by a `* / % //` chain. -/
def parseTerm : ℕ → List Tok → PRes
  | 0, _ => .error .syntaxError
  | fuel + 1, toks =>
    match parseFactor fuel toks with
    | .error e => .error e
    | .ok (a, r) => parseTermLoop fuel a r

/-- Left-associative `* / % //` chain continuation. -/
def parseTermLoop : ℕ → Ast → List Tok → PRes
  | 0, _, _ => .error .syntaxError
  | fuel + 1, a, toks =>
    match toks with
    | .star :: r =>
      match parseFactor fuel r with
      | .error e => .error e
      | .ok (b, r2) => parseTermLoop fuel (.binop .mul a b) r2
    | .slash :: r =>
      match parseFactor fuel r with
      | .error e => .error e
      | .ok (b, r2) => parseTermLoop fuel (.binop .div a b) r2
    | .percent :: r =>
      match parseFactor fuel r with
      | .error e => .error e
      | .ok (b, r2) => parseTermLoop fuel (.binop .mod a b) r2
    | .dslash :: r =>
      match parseFactor fuel r with
      | .error e => .error e
      | .ok (b, r2) => parseTermLoop fuel (.binop .floordiv a b) r2
    | _ => .ok (a, toks)

/-- Unary level: optional `+`/`-` signs, then the power level. -/
def parseFactor : ℕ → List Tok → PRes
  | 0, _ => .error .syntaxError
  | fuel + 1, toks =>
    match toks with
    | .plus :: r =>
      match parseFactor fuel r with
      | .error e => .error e
      | .ok (a, r2) => .ok (.unop .pos a, r2)
    | .minus :: r =>
      match parseFactor fuel r with
      | .error e => .error e
      | .ok (a, r2) => .ok (.unop .neg a, r2)
    | _ => parsePower fuel toks

/-- Power level: a primary optionally raised (right associatively, with a
unary item on the right) by `**`. -/
def parsePower : ℕ → List Tok → PRes
  | 0, _ => .error .syntaxError
  | fuel + 1, toks =>
    match parsePrimary fuel toks with
    | .error e => .error e
    | .ok (a, r) =>
      match r with
      | .dstar :: r2 =>
        match parseFactor fuel r2 with
        | .error e => .error e
        | .ok (b, r3) => .ok (.binop .pow a b, r3)
      | _ => .ok (a, r)

/-- Primary level: an atom followed by trailers. -/
def parsePrimary : ℕ → List Tok → PRes
  | 0, _ => .error .syntaxError
  | fuel + 1, toks =>
    match parseAtom fuel toks with
    | .error e => .error e
    | .ok (a, r) => parseTrailers fuel a r

/-- Call / attribute / subscript trailers. -/
def parseTrailers : ℕ → Ast → List Tok → PRes
  | 0, _, _ => .error .syntaxError
  | fuel + 1, a, toks =>
    match toks with
    | .lparen :: .rparen :: r => parseTrailers fuel (.call a []) r
    | .lparen :: r =>
      match parseArgs fuel r with
      | .error e => .error e
      | .ok (args, r2) =>
        match r2 with
        | .rparen :: r3 => parseTrailers fuel (.call a args) r3
        | _ => .error .syntaxError
    | .dot :: .nameTok s :: r => parseTrailers fuel (.attr a s) r
    | .dot :: _ => .error .syntaxError
    | .lbrack :: r =>
      match parseArith fuel r with
      | .error e => .error e
      | .ok (i, r2) =>
        match r2 with
        | .rbrack :: r3 => parseTrailers fuel (.subscript a i) r3
        | _ => .error .syntaxError
    | _ => .ok (a, toks)

/-- Nonempty comma-separated argument list. -/
def parseArgs : ℕ → List Tok → Except EvalErr (List Ast × List Tok)
  | 0, _ => .error .syntaxError
  | fuel + 1, toks =>
    match parseArith fuel toks with
    | .error e => .error e
    | .ok (a, r) =>
      match r with
      | .comma :: r2 =>
        match parseArgs fuel r2 with
        | .error e => .error e
        | .ok (rest, r3) => .ok (a :: rest, r3)
      | _ => .ok ([a], r)

/-- Atoms: literals, names (with the keyword constants `True`, `False`,
`None`), and parenthesised expressions. -/
def parseAtom : ℕ → List Tok → PRes
  | 0, _ => .error .syntaxError
  | fuel + 1, toks =>
    match toks with
    | .intTok n :: r => .ok (.intLit n, r)
    | .floatTok q :: r => .ok (.floatLit q, r)
    | .strTok s :: r => .ok (.strLit s, r)
    | .nameTok s :: r =>
      if s = "True" then .ok (.boolLit true, r)
      else if s = "False" then .ok (.boolLit false, r)
      else if s = "None" then .ok (.noneLit, r)
      else .ok (.name s, r)
    | .lparen :: r =>
      match parseArith fuel r with
      | .error e => .error e
      | .ok (a, r2) =>
        match r2 with
        | .rparen :: r3 => .ok (a, r3)
        | _ => .error .syntaxError
    | _ => .error .syntaxError

end

/-- Fuel budget amply sufficient for the recursion depth of the parser on a
given token list. -/
def parseFuel (toks : List Tok) : ℕ :=
  20 * toks.length + 30

/-- Full parse in `eval` mode: one expression consuming every token. -/
def parseExpr (toks : List Tok) : Except EvalErr Ast :=
  match parseArith (parseFuel toks) toks with
  | .ok (a, []) => .ok a
  | .ok (_, _ :: _) => .error .syntaxError
  | .error e => .error e

/-! ## Evaluation

`EvalVisitor.visit` walks the tree against `ALLOWED_OPERATORS` and
`MATH_FUNCS`.  Numeric values keep the int/float distinction of the host
language; `numView` is the implicit numeric coercion (booleans count as
integers there). -/

/-- Numeric view of a value: its rational magnitude plus a float marker. -/
def numView : Value → Option (ℚ × Bool)
  | .int n => some ((n : ℚ), false)
  | .float q => some (q, true)
  | .bool b => some (if b then 1 else 0, false)
  | _ => Option.none

/-- Integer view of a value (for the integer-only three-argument `pow`). -/
def intView : Value → Option ℤ
  | .int n => some n
  | .bool b => some (if b then 1 else 0)
  | _ => Option.none

/-- Repackage a numeric result with the float marker of its operands. -/
def mkNum (isFloat : Bool) (q : ℚ) : Value :=
  if isFloat then .float q else .int q.num

/-- String repetition (`str * int`). -/
def strRepeat (s : String) (n : ℤ) : String :=
  String.join (List.replicate n.toNat s)

/-- Power semantics shared by the `**` operator and the builtin `pow`:
integral exponents are exact (negative ones produce floats and reject a zero
base), non-integral exponents fall to the float library power. -/
def powVal (o : Oracle) (a : ℚ) (fa : Bool) (b : ℚ) (fb : Bool) :
    Except EvalErr Value :=
  if b.den = 1 then
    if 0 ≤ b.num then .ok (mkNum (fa || fb) (a ^ b.num.toNat))
    else if a = 0 then .error .zeroDivision
    else .ok (.float (a ^ b.num))
  else
    match o.rpow a b with
    | .ok v => .ok (.float v)
    | .error e => .error e

/-- Numeric part of the binary operator table: both operands must view as
numbers, division-like operators reject a zero divisor with
`ZeroDivisionError`, and `%` and `//` use floor semantics. -/
def applyBinNum (o : Oracle) (k : BinK) (va vb : Value) : Except EvalErr Value :=
  match numView va, numView vb with
  | some (a, fa), some (b, fb) =>
    match k with
    | .add => .ok (mkNum (fa || fb) (a + b))
    | .sub => .ok (mkNum (fa || fb) (a - b))
    | .mul => .ok (mkNum (fa || fb) (a * b))
    | .div => if b = 0 then .error .zeroDivision else .ok (.float (a / b))
    | .floordiv =>
      if b = 0 then .error .zeroDivision else .ok (mkNum (fa || fb) (⌊a / b⌋ : ℤ))
    | .mod =>
      if b = 0 then .error .zeroDivision
      else .ok (mkNum (fa || fb) (a - b * (⌊a / b⌋ : ℤ)))
    | .pow => powVal o a fa b fb
  | _, _ => .error .typeError

/-- The binary half of `ALLOWED_OPERATORS`: the string cases of `+` and `*`
the host operators support, then the numeric table. -/
def applyBin (o : Oracle) (k : BinK) (va vb : Value) : Except EvalErr Value :=
  match k, va, vb with
  | .add, .str s, .str t => .ok (.str (s ++ t))
  | .mul, .str s, .int n => .ok (.str (strRepeat s n))
  | .mul, .int n, .str s => .ok (.str (strRepeat s n))
  | k, va, vb => applyBinNum o k va vb

/-- The unary half of `ALLOWED_OPERATORS` (`USub`, `UAdd`). -/
def applyUn (k : UnK) (v : Value) : Except EvalErr Value :=
  match numView v with
  | some (a, f) =>
    match k with
    | .neg => .ok (mkNum f (-a))
    | .pos => .ok (mkNum f a)
  | Option.none => .error .typeError

/-- Application of a one-argument float library function. -/
def oracle1 (f : ℚ → Except EvalErr ℚ) (v : Value) : Except EvalErr Value :=
  match numView v with
  | some (a, _) =>
    match f a with
    | .ok r => .ok (.float r)
    | .error e => .error e
  | Option.none => .error .typeError

/-- Application of a two-argument float library function. -/
def oracle2 (f : ℚ → ℚ → Except EvalErr ℚ) (v w : Value) : Except EvalErr Value :=
  match numView v, numView w with
  | some (a, _), some (b, _) =>
    match f a b with
    | .ok r => .ok (.float r)
    | .error e => .error e
  | _, _ => .error .typeError

/-- `math.factorial`: rejects negative integers with `ValueError`, rejects
floats with `TypeError`, accepts booleans (integer subtype) and computes the
exact factorial of any nonnegative integer — no size bound exists. -/
def factApply (v : Value) : Except EvalErr Value :=
  match v with
  | .int m => if m < 0 then .error .valueError else .ok (.int (Nat.factorial m.toNat))
  | .bool _ => .ok (.int 1)
  | _ => .error .typeError

/-- Three-argument builtin `pow` (integer modular power). -/
def modPow (v w m : Value) : Except EvalErr Value :=
  match intView v, intView w, intView m with
  | some a, some b, some mm =>
    if mm = 0 then .error .valueError
    else if b < 0 then .error .valueError
    else .ok (.int (Int.fmod (a ^ b.toNat) mm))
  | _, _, _ => .error .typeError

/-- Dispatch of a callable `MATH_FUNCS` entry on its evaluated arguments.
Arity is enforced by each function itself: a mismatch is a `TypeError`. -/
def applyFunc (o : Oracle) (n : String) (args : List Value) :
    Except EvalErr Value :=
  match n, args with
  | "sin", [v] => oracle1 o.sin v
  | "cos", [v] => oracle1 o.cos v
  | "tan", [v] => oracle1 o.tan v
  | "asin", [v] => oracle1 o.asin v
  | "acos", [v] => oracle1 o.acos v
  | "atan", [v] => oracle1 o.atan v
  | "sqrt", [v] => oracle1 o.sqrt v
  | "log", [v] => oracle1 o.log10 v
  | "ln", [v] => oracle1 o.ln v
  | "ln", [v, w] => oracle2 o.logBase v w
  | "log10", [v] => oracle1 o.log10 v
  | "abs", [v] =>
    match v with
    | .int m => .ok (.int |m|)
    | .float q => .ok (.float |q|)
    | .bool b => .ok (.int (if b then 1 else 0))
    | _ => .error .typeError
  | "fact", [v] => factApply v
  | "factorial", [v] => factApply v
  | "pow", [v, w] =>
    match numView v, numView w with
    | some (a, fa), some (b, fb) => powVal o a fa b fb
    | _, _ => .error .typeError
  | "pow", [v, w, m] => modPow v w m
  | _, _ => .error .typeError

mutual

/-- The tree walk of `EvalVisitor.visit`: constants return their value
verbatim; binary and unary nodes evaluate operands then apply the operator
table; calls require a plain name in `MATH_FUNCS` (otherwise
`restrictedCall` before any argument is evaluated), evaluate arguments left
to right and apply the entry (calling a constant entry is a `TypeError`);
bare names return the table entry (function object or constant); attribute
and subscript nodes fall into the final rejection branch. -/
def visit (o : Oracle) : Ast → Except EvalErr Value
  | .intLit n => .ok (.int n)
  | .floatLit q => .ok (.float q)
  | .strLit s => .ok (.str s)
  | .boolLit b => .ok (.bool b)
  | .noneLit => .ok .noneV
  | .binop k a b =>
    match visit o a with
    | .error e => .error e
    | .ok va =>
      match visit o b with
      | .error e => .error e
      | .ok vb => applyBin o k va vb
  | .unop k a =>
    match visit o a with
    | .error e => .error e
    | .ok va => applyUn k va
  | .call f args =>
    match f with
    | .name n =>
      match MATH_FUNCS n with
      | Option.none => .error .restrictedCall
      | some ent =>
        match visitArgs o args with
        | .error e => .error e
        | .ok vs =>
          match ent with
          | .fn => applyFunc o n vs
          | .constant _ => .error .typeError
    | _ => .error .restrictedCall
  | .name n =>
    match MATH_FUNCS n with
    | some .fn => .ok (.func n)
    | some (.constant v) => .ok (.float v)
    | Option.none => .error (.nameNotAllowed n)
  | .attr _ _ => .error .elementNotAllowed
  | .subscript _ _ => .error .elementNotAllowed

/-- Left-to-right evaluation of call arguments. -/
def visitArgs (o : Oracle) : List Ast → Except EvalErr (List Value)
  | [] => .ok []
  | a :: rest =>
    match visit o a with
    | .error e => .error e
    | .ok v =>
      match visitArgs o rest with
      | .error e => .error e
      | .ok vs => .ok (v :: vs)

end

/-- The complete `safe_eval` pipeline: desugar, tokenize, parse, visit. -/
def safe_eval (o : Oracle) (expr : String) : Except EvalErr Value :=
  match tokenize (desugar expr).data with
  | .error e => .error e
  | .ok toks =>
    match parseExpr toks with
    | .error e => .error e
    | .ok a => visit o a

/-! ## Specification side for the precedence claim

The claim to check is a refinement statement: for every well-formed arithmetic
expression built from number literals, the binary operators, unary sign and
parentheses, `safe_eval` of its concrete syntax matches the
standard-precedence reading.  The spec-side artefacts are `AExp` (expression
trees), `printAExp` (concrete syntax with the standard minimal
parenthesisation: parentheses appear exactly where precedence and
associativity demand them) and `astOf` (the standard-precedence reading of
the tree).  The round-trip theorem `safe_eval (printAExp e) = visit (astOf e)`
then says the evaluator parses the string exactly as standard precedence
dictates. -/

/-- Arithmetic expressions of the claim: number literals, the seven binary
operators, and unary sign. -/
inductive AExp where
  | num (n : ℕ)
  | add (a b : AExp)
  | sub (a b : AExp)
  | mul (a b : AExp)
  | div (a b : AExp)
  | mod (a b : AExp)
  | floordiv (a b : AExp)
  | pow (a b : AExp)
  | neg (a : AExp)
  | pos (a : AExp)

/-- Standard precedence levels: additive `1`, multiplicative `2`, unary sign
`3`, power `4`, atom `5`. -/
def prec : AExp → ℕ
  | .num _ => 5
  | .add _ _ => 1
  | .sub _ _ => 1
  | .mul _ _ => 2
  | .div _ _ => 2
  | .mod _ _ => 2
  | .floordiv _ _ => 2
  | .pow _ _ => 4
  | .neg _ => 3
  | .pos _ => 3

/-- Parenthesise a token string when it sits at a context level above its own
precedence. -/
def wrapP (lvl p : ℕ) (ts : List Tok) : List Tok :=
  if lvl ≤ p then ts else Tok.lparen :: (ts ++ [Tok.rparen])

/-- Minimal-parenthesisation printing at the token level.  Operand context
levels follow the grammar: additive operators take an additive left and a
multiplicative right (left associativity), multiplicative operators a
multiplicative left and a unary right, power an atomic left and a unary
right (right associativity), and unary sign a unary operand. -/
def tokOf : AExp → List Tok
  | .num n => [Tok.intTok n]
  | .add a b => wrapP 1 (prec a) (tokOf a) ++ Tok.plus :: wrapP 2 (prec b) (tokOf b)
  | .sub a b => wrapP 1 (prec a) (tokOf a) ++ Tok.minus :: wrapP 2 (prec b) (tokOf b)
  | .mul a b => wrapP 2 (prec a) (tokOf a) ++ Tok.star :: wrapP 3 (prec b) (tokOf b)
  | .div a b => wrapP 2 (prec a) (tokOf a) ++ Tok.slash :: wrapP 3 (prec b) (tokOf b)
  | .mod a b => wrapP 2 (prec a) (tokOf a) ++ Tok.percent :: wrapP 3 (prec b) (tokOf b)
  | .floordiv a b => wrapP 2 (prec a) (tokOf a) ++ Tok.dslash :: wrapP 3 (prec b) (tokOf b)
  | .pow a b => wrapP 5 (prec a) (tokOf a) ++ Tok.dstar :: wrapP 3 (prec b) (tokOf b)
  | .neg a => Tok.minus :: wrapP 3 (prec a) (tokOf a)
  | .pos a => Tok.plus :: wrapP 3 (prec a) (tokOf a)

/-- Tokens of an expression placed at context level `lvl`. -/
def tokAt (lvl : ℕ) (e : AExp) : List Tok :=
  wrapP lvl (prec e) (tokOf e)

/-- The standard-precedence reading of an `AExp` as an evaluator tree. -/
def astOf : AExp → Ast
  | .num n => .intLit n
  | .add a b => .binop .add (astOf a) (astOf b)
  | .sub a b => .binop .sub (astOf a) (astOf b)
  | .mul a b => .binop .mul (astOf a) (astOf b)
  | .div a b => .binop .div (astOf a) (astOf b)
  | .mod a b => .binop .mod (astOf a) (astOf b)
  | .floordiv a b => .binop .floordiv (astOf a) (astOf b)
  | .pow a b => .binop .pow (astOf a) (astOf b)
  | .neg a => .unop .neg (astOf a)
  | .pos a => .unop .pos (astOf a)

/-- Little-endian base-10 digits, by fuelled recursion (computable in the
kernel; equal to `Nat.digits 10`, as proved below). -/
def natDigitsAux : ℕ → ℕ → List ℕ
  | 0, _ => []
  | _ + 1, 0 => []
  | fuel + 1, n => n % 10 :: natDigitsAux fuel (n / 10)

/-- Little-endian base-10 digits of a natural number. -/
def natDigits (n : ℕ) : List ℕ :=
  natDigitsAux n n

/-- Decimal digit characters of a positive numeral, most significant first. -/
def digitChars (n : ℕ) : List Char :=
  (natDigits n).reverse.map fun d => Char.ofNat (48 + d)

/-- Concrete characters of a token. -/
def tokStr : Tok → List Char
  | .intTok n => if n = 0 then ['0'] else digitChars n
  | .floatTok _ => []
  | .nameTok s => s.data
  | .strTok s => s.data
  | .plus => ['+']
  | .minus => ['-']
  | .star => ['*']
  | .slash => ['/']
  | .dslash => ['/', '/']
  | .percent => ['%']
  | .dstar => ['*', '*']
  | .lparen => ['(']
  | .rparen => [')']
  | .comma => [',']
  | .dot => ['.']
  | .lbrack => ['[']
  | .rbrack => [']']

/-- Rendering a token string to characters. -/
def renderToks (ts : List Tok) : List Char :=
  ts.flatMap tokStr

/-- The concrete syntax of an arithmetic expression. -/
def printAExp (e : AExp) : String :=
  ⟨renderToks (tokOf e)⟩

/-- Tokens the arithmetic printer can emit. -/
def tokArith : Tok → Bool
  | .intTok _ => true
  | .plus => true
  | .minus => true
  | .star => true
  | .slash => true
  | .dslash => true
  | .percent => true
  | .dstar => true
  | .lparen => true
  | .rparen => true
  | _ => false

/-- Token strings the printer emits start with a number, an opening
parenthesis or a sign. -/
def startsOk (ts : List Tok) : Bool :=
  match ts.head? with
  | some (.intTok _) => true
  | some .lparen => true
  | some .minus => true
  | some .plus => true
  | _ => false

/-- Token strings the printer emits end with a number or a closing
parenthesis. -/
def endsOk (ts : List Tok) : Bool :=
  match ts.getLast? with
  | some (.intTok _) => true
  | some .rparen => true
  | _ => false

/-- Adjacent token pairs whose renderings re-tokenize independently: a number
may not follow a number (the digit runs would merge) and a star or slash may
not begin the token after a star or slash (maximal munch would fuse them). -/
def sepOk : Tok → Tok → Bool
  | .intTok _, .intTok _ => false
  | .star, .star => false
  | .star, .dstar => false
  | .slash, .slash => false
  | .slash, .dslash => false
  | _, _ => true

/-- Every adjacent pair of the list satisfies `sepOk`. -/
def chainOk : List Tok → Bool
  | a :: b :: rest => sepOk a b && chainOk (b :: rest)
  | _ => true

/-- Tokens that may follow a completed additive-level parse without extending
it. -/
def isFA : List Tok → Bool
  | [] => true
  | .rparen :: _ => true
  | _ => false

/-- Tokens that may follow a completed multiplicative-level parse without
extending it. -/
def isFT : List Tok → Bool
  | [] => true
  | .rparen :: _ => true
  | .plus :: _ => true
  | .minus :: _ => true
  | _ => false

/-- Tokens that may follow a completed unary/power-level parse without
extending it. -/
def isFF : List Tok → Bool
  | [] => true
  | .rparen :: _ => true
  | .plus :: _ => true
  | .minus :: _ => true
  | .star :: _ => true
  | .slash :: _ => true
  | .percent :: _ => true
  | .dslash :: _ => true
  | _ => false

/-- Tokens that may follow a completed primary without extending it. -/
def isFP : List Tok → Bool
  | .dstar :: _ => true
  | r => isFF r

/-- Left spine of an additive chain: the leftmost non-additive item plus the
`(op, operand)` pairs, `true` for `+`. -/
def addSpine : AExp → AExp × List (Bool × AExp)
  | .add a b => ((addSpine a).1, (addSpine a).2 ++ [(true, b)])
  | .sub a b => ((addSpine a).1, (addSpine a).2 ++ [(false, b)])
  | e => (e, [])

/-- Left spine of a multiplicative chain. -/
def termSpine : AExp → AExp × List (BinK × AExp)
  | .mul a b => ((termSpine a).1, (termSpine a).2 ++ [(.mul, b)])
  | .div a b => ((termSpine a).1, (termSpine a).2 ++ [(.div, b)])
  | .mod a b => ((termSpine a).1, (termSpine a).2 ++ [(.mod, b)])
  | .floordiv a b => ((termSpine a).1, (termSpine a).2 ++ [(.floordiv, b)])
  | e => (e, [])

/-- Token of an additive spine operator. -/
def addOpTok (b : Bool) : Tok :=
  if b then .plus else .minus

/-- Token of a multiplicative spine operator. -/
def termOpTok : BinK → Tok
  | .div => .slash
  | .mod => .percent
  | .floordiv => .dslash
  | _ => .star

/-- Tokens of the operator/operand pairs of an additive spine. -/
def addSpineToks (ps : List (Bool × AExp)) : List Tok :=
  ps.flatMap fun p => addOpTok p.1 :: tokAt 2 p.2

/-- Tokens of the operator/operand pairs of a multiplicative spine. -/
def termSpineToks (ps : List (BinK × AExp)) : List Tok :=
  ps.flatMap fun p => termOpTok p.1 :: tokAt 3 p.2

/-- Left-associated tree of an additive spine. -/
def addSpineAst (acc : Ast) (ps : List (Bool × AExp)) : Ast :=
  ps.foldl (fun acc p => .binop (if p.1 then .add else .sub) acc (astOf p.2)) acc

/-- Left-associated tree of a multiplicative spine. -/
def termSpineAst (acc : Ast) (ps : List (BinK × AExp)) : Ast :=
  ps.foldl (fun acc p => .binop p.1 acc (astOf p.2)) acc

/-- The five printer invariants bundled: all tokens are arithmetic tokens,
adjacent pairs re-tokenize independently, the string is nonempty and starts
and ends with printable boundaries. -/
def TokWF (ts : List Tok) : Prop :=
  (∀ t ∈ ts, tokArith t = true) ∧ chainOk ts = true ∧ startsOk ts = true ∧
    endsOk ts = true ∧ ts ≠ []

/-- Correct-parse statement at the additive level: in a context whose next
token cannot extend an additive parse, `parseArith` consumes exactly the
printed tokens of `e` and returns its standard reading. -/
def S1 (e : AExp) : Prop :=
  ∀ (f : ℕ) (r : List Tok), isFA r = true →
    20 * (tokAt 1 e ++ r).length + 25 ≤ f →
    parseArith f (tokAt 1 e ++ r) = .ok (astOf e, r)

/-- Correct-parse statement at the multiplicative level. -/
def S2 (e : AExp) : Prop :=
  ∀ (f : ℕ) (r : List Tok), isFT r = true →
    20 * (tokAt 2 e ++ r).length + 24 ≤ f →
    parseTerm f (tokAt 2 e ++ r) = .ok (astOf e, r)

/-- Correct-parse statement at the unary level. -/
def S3 (e : AExp) : Prop :=
  ∀ (f : ℕ) (r : List Tok), isFF r = true →
    20 * (tokAt 3 e ++ r).length + 23 ≤ f →
    parseFactor f (tokAt 3 e ++ r) = .ok (astOf e, r)

/-- Correct-parse statement at the power level. -/
def S4 (e : AExp) : Prop :=
  ∀ (f : ℕ) (r : List Tok), isFF r = true →
    20 * (tokAt 4 e ++ r).length + 22 ≤ f →
    parsePower f (tokAt 4 e ++ r) = .ok (astOf e, r)

/-- Correct-parse statement at the primary level. -/
def S5 (e : AExp) : Prop :=
  ∀ (f : ℕ) (r : List Tok), isFP r = true →
    20 * (tokAt 5 e ++ r).length + 21 ≤ f →
    parsePrimary f (tokAt 5 e ++ r) = .ok (astOf e, r)

/-! ## Desugarer lemmas -/

theorem factorial_data : "factorial".data = ['f', 'a', 'c', 't', 'o', 'r', 'i', 'a', 'l'] :=
  rfl

theorem factorialOpen_data :
    "factorial(".data = ['f', 'a', 'c', 't', 'o', 'r', 'i', 'a', 'l', '('] :=
  rfl

theorem mem_factorial_sub {c : Char} (h : c ∈ "factorial".data) : c ∈ "factorial(".data := by
  rw [factorial_data] at h
  rw [factorialOpen_data]
  simp at h ⊢
  tauto

theorem mem_replaceCaret {c : Char} {l : List Char} (h : c ∈ replaceCaret l) :
    c = '*' ∨ (c ∈ l ∧ c ≠ '^') := by
  rw [replaceCaret, List.mem_flatMap] at h
  obtain ⟨a, ha, hc⟩ := h
  by_cases h2 : a = '^'
  · rw [if_pos h2] at hc
    simp at hc
    exact Or.inl hc
  · rw [if_neg h2] at hc
    simp at hc
    subst hc
    exact Or.inr ⟨ha, h2⟩

theorem replaceCaret_no_caret {c : Char} {l : List Char} (h : c ∈ replaceCaret l) :
    c ≠ '^' := by
  rcases mem_replaceCaret h with h1 | h2
  · subst h1; decide
  · exact h2.2

theorem mem_of_rev_takeWhile {c : Char} {l : List Char} {p : Char → Bool}
    (h : c ∈ (l.reverse.takeWhile p).reverse) : c ∈ l := by
  rw [List.mem_reverse] at h
  have h2 := (List.takeWhile_sublist p).subset h
  rwa [List.mem_reverse] at h2

theorem mem_of_rev_dropWhile {c : Char} {l : List Char} {p : Char → Bool}
    (h : c ∈ (l.reverse.dropWhile p).reverse) : c ∈ l := by
  rw [List.mem_reverse] at h
  have h2 := (List.dropWhile_sublist p).subset h
  rwa [List.mem_reverse] at h2

theorem mem_desugarStep {c ch : Char} {out : List Char}
    (h : c ∈ desugarStep out ch) :
    c ∈ out ∨ c ∈ "factorial(".data ∨ c = ')' ∨ (c = ch ∧ ch ≠ '!') := by
  by_cases hb : ch = '!'
  · subst hb
    rw [desugarStep, if_pos rfl] at h
    by_cases hl : out.getLast? = some ')'
    · rw [if_pos hl] at h
      rcases List.mem_append.1 h with h1 | h2
      · rcases List.mem_append.1 h1 with h3 | h4
        · exact Or.inl (List.take_subset _ _ h3)
        · exact Or.inr (Or.inl (mem_factorial_sub h4))
      · exact Or.inl (List.drop_subset _ _ h2)
    · rw [if_neg hl] at h
      rcases List.mem_append.1 h with h1 | h2
      · rcases List.mem_append.1 h1 with h3 | h4
        · rcases List.mem_append.1 h3 with h5 | h6
          · exact Or.inl (mem_of_rev_dropWhile h5)
          · exact Or.inr (Or.inl h6)
        · exact Or.inl (mem_of_rev_takeWhile h4)
      · simp at h2
        exact Or.inr (Or.inr (Or.inl h2))
  · rw [desugarStep, if_neg hb] at h
    rcases List.mem_append.1 h with h1 | h2
    · exact Or.inl h1
    · simp at h2
      exact Or.inr (Or.inr (Or.inr ⟨h2, hb⟩))

theorem mem_desugarFoldl {c : Char} :
    ∀ (l out : List Char), c ∈ l.foldl desugarStep out →
      c ∈ out ∨ (c ∈ l ∧ c ≠ '!') ∨ c ∈ "factorial(".data ∨ c = ')'
  | [], _, h => Or.inl h
  | ch :: rest, out, h => by
    have ih := mem_desugarFoldl rest (desugarStep out ch) h
    rcases ih with h1 | h2 | h3 | h4
    · rcases mem_desugarStep h1 with g1 | g2 | g3 | g4
      · exact Or.inl g1
      · exact Or.inr (Or.inr (Or.inl g2))
      · exact Or.inr (Or.inr (Or.inr g3))
      · obtain ⟨rfl, hch⟩ := g4
        exact Or.inr (Or.inl ⟨List.mem_cons_self _ _, hch⟩)
    · exact Or.inr (Or.inl ⟨List.mem_cons_of_mem _ h2.1, h2.2⟩)
    · exact Or.inr (Or.inr (Or.inl h3))
    · exact Or.inr (Or.inr (Or.inr h4))

theorem desugar_char_ok {s : String} {c : Char} (h : c ∈ (desugar s).data) :
    c ≠ '!' ∧ c ≠ '^' := by
  have h2 : c ∈ (replaceCaret s.data).foldl desugarStep [] := h
  rcases mem_desugarFoldl _ _ h2 with h3 | h4 | h5 | h6
  · exact absurd h3 (List.not_mem_nil c)
  · exact ⟨h4.2, replaceCaret_no_caret h4.1⟩
  · rw [factorialOpen_data] at h5
    simp at h5
    constructor <;> (rintro rfl; revert h5; decide)
  · subst h6
    exact ⟨by decide, by decide⟩

/-! ## Digit and lexer lemmas -/

theorem natOfDigits_aux :
    ∀ (L : List ℕ) (acc : ℕ),
      L.reverse.foldl (fun a d => 10 * a + d) acc = acc * 10 ^ L.length + Nat.ofDigits 10 L
  | [], acc => by simp
  | d :: t, acc => by
    rw [List.reverse_cons, List.foldl_append, natOfDigits_aux t acc]
    simp [Nat.ofDigits_cons, pow_succ]
    ring

theorem natOfDigits_digits (n : ℕ) :
    natOfDigits ((Nat.digits 10 n).reverse) = n := by
  have h := natOfDigits_aux (Nat.digits 10 n) 0
  rw [natOfDigits]
  rw [h]
  simp [Nat.ofDigits_digits]

theorem natDigitsAux_eq : ∀ (fuel n : ℕ), n ≤ fuel → natDigitsAux fuel n = Nat.digits 10 n := by
  intro fuel
  induction fuel with
  | zero =>
    intro n h
    have hn : n = 0 := Nat.le_zero.mp h
    subst hn
    simp [natDigitsAux]
  | succ f ih =>
    intro n h
    cases n with
    | zero => simp [natDigitsAux]
    | succ m =>
      have hd : (m + 1) / 10 ≤ f := by
        have := Nat.div_lt_self (Nat.succ_pos m) (by norm_num : 1 < 10)
        omega
      rw [show natDigitsAux (f + 1) (m + 1)
            = (m + 1) % 10 :: natDigitsAux f ((m + 1) / 10) from rfl]
      rw [ih ((m + 1) / 10) hd]
      rw [Nat.digits_def' (by norm_num : (1:ℕ) < 10) (Nat.succ_pos m)]

theorem natDigits_eq (n : ℕ) : natDigits n = Nat.digits 10 n :=
  natDigitsAux_eq n n (le_refl n)

theorem digitChars_digits (n : ℕ) :
    digitChars n = (Nat.digits 10 n).reverse.map fun d => Char.ofNat (48 + d) := by
  rw [digitChars, natDigits_eq]

theorem digitChar_toNat {d : ℕ} (h : d < 10) : (Char.ofNat (48 + d)).toNat = 48 + d := by
  interval_cases d <;> decide

theorem digitChar_isDigit {d : ℕ} (h : d < 10) : (Char.ofNat (48 + d)).isDigit = true := by
  interval_cases d <;> decide

theorem digitChars_isDigit {c : Char} {n : ℕ} (h : c ∈ digitChars n) : c.isDigit = true := by
  rw [digitChars_digits] at h
  simp only [List.mem_map, List.mem_reverse] at h
  obtain ⟨d, hd, rfl⟩ := h
  exact digitChar_isDigit (Nat.digits_lt_base (by norm_num) hd)

theorem digitChars_ne_nil {n : ℕ} (h : n ≠ 0) : digitChars n ≠ [] := by
  rw [digitChars_digits]
  simp [Nat.digits_ne_nil_iff_ne_zero, h]

theorem digitChars_map_val {n : ℕ} :
    (digitChars n).map (fun c => c.toNat - 48) = (Nat.digits 10 n).reverse := by
  rw [digitChars_digits, List.map_map]
  conv_rhs => rw [← List.map_id ((Nat.digits 10 n).reverse)]
  apply List.map_congr_left
  intro d hd
  rw [List.mem_reverse] at hd
  have hlt := Nat.digits_lt_base (by norm_num) hd
  simp [Function.comp, digitChar_toNat hlt]

theorem tokStr_int_digits {c : Char} {n : ℕ} (h : c ∈ tokStr (.intTok n)) :
    c.isDigit = true := by
  simp only [tokStr] at h
  by_cases h0 : n = 0
  · rw [if_pos h0] at h
    simp at h
    subst h
    decide
  · rw [if_neg h0] at h
    exact digitChars_isDigit h

theorem digit_not_space {c : Char} (h : c.isDigit = true) : ¬(c = ' ' ∨ c = '\t') := by
  rintro (rfl | rfl) <;> simp at h

theorem mem_of_head? {α : Type} {l : List α} {a : α} (h : l.head? = some a) : a ∈ l := by
  cases l with
  | nil => simp at h
  | cons x xs =>
    simp at h
    subst h
    exact List.mem_cons_self _ _

theorem takeWhile_append_all {p : Char → Bool} :
    ∀ {xs : List Char} (ys : List Char), (∀ c ∈ xs, p c = true) →
      (xs ++ ys).takeWhile p = xs ++ ys.takeWhile p
  | [], ys, _ => rfl
  | x :: xs, ys, h => by
    have hx := h x (List.mem_cons_self _ _)
    simp only [List.cons_append, List.takeWhile_cons, hx, if_true]
    rw [takeWhile_append_all ys fun c hc => h c (List.mem_cons_of_mem _ hc)]

theorem dropWhile_append_all {p : Char → Bool} :
    ∀ {xs : List Char} (ys : List Char), (∀ c ∈ xs, p c = true) →
      (xs ++ ys).dropWhile p = ys.dropWhile p
  | [], ys, _ => rfl
  | x :: xs, ys, h => by
    have hx := h x (List.mem_cons_self _ _)
    simp only [List.cons_append, List.dropWhile_cons, hx, if_true]
    exact dropWhile_append_all ys fun c hc => h c (List.mem_cons_of_mem _ hc)

theorem takeWhile_nil_of_head {p : Char → Bool} {l : List Char}
    (h : ∀ c, l.head? = some c → p c = false) : l.takeWhile p = [] := by
  cases l with
  | nil => rfl
  | cons x xs => simp [List.takeWhile_cons, h x rfl]

theorem dropWhile_self_of_head {p : Char → Bool} {l : List Char}
    (h : ∀ c, l.head? = some c → p c = false) : l.dropWhile p = l := by
  cases l with
  | nil => rfl
  | cons x xs => simp [List.dropWhile_cons, h x rfl]

theorem lexDigits_spec {ds rest : List Char} (h : ∀ c ∈ ds, c.isDigit = true)
    (hr : ∀ c, rest.head? = some c → c.isDigit = false) :
    lexDigits (ds ++ rest) = (ds.map fun c => c.toNat - 48, rest) := by
  rw [lexDigits, takeWhile_append_all rest h, dropWhile_append_all rest h,
    takeWhile_nil_of_head hr, dropWhile_self_of_head hr, List.append_nil]

theorem render_cons_head {t : Tok} {ts : List Tok} (h : tokStr t ≠ []) :
    (renderToks (t :: ts)).head? = (tokStr t).head? := by
  rw [renderToks, List.flatMap_cons]
  cases hs : tokStr t with
  | nil => exact absurd hs h
  | cons a l => simp

theorem tokStr_ne_nil {t : Tok} (h : tokArith t = true) : tokStr t ≠ [] := by
  cases t with
  | intTok n =>
    simp only [tokStr]
    by_cases h0 : n = 0
    · simp [h0]
    · simp [h0, digitChars_ne_nil h0]
  | floatTok q => simp [tokArith] at h
  | nameTok s => simp [tokArith] at h
  | strTok s => simp [tokArith] at h
  | comma => simp [tokArith] at h
  | dot => simp [tokArith] at h
  | lbrack => simp [tokArith] at h
  | rbrack => simp [tokArith] at h
  | plus => decide
  | minus => decide
  | star => decide
  | slash => decide
  | dslash => decide
  | percent => decide
  | dstar => decide
  | lparen => decide
  | rparen => decide

theorem next_first_not_digit_dot {t2 : Tok} (ha : tokArith t2 = true)
    (hni : ∀ n, t2 ≠ .intTok n) :
    ∀ c, (tokStr t2).head? = some c → c.isDigit = false ∧ c ≠ '.' := by
  cases t2 <;> simp_all [tokArith, tokStr] <;> intro c h <;> simp_all <;> decide

theorem next_first_ne_star {t2 : Tok} (ha : tokArith t2 = true)
    (hs : t2 ≠ .star) (hd : t2 ≠ .dstar) :
    ∀ c, (tokStr t2).head? = some c → c ≠ '*' := by
  cases t2 <;> try simp_all [tokArith, tokStr] <;> try decide
  case intTok n =>
    intro c h
    have hdig := tokStr_int_digits (mem_of_head? h)
    rintro rfl
    simp at hdig

theorem next_first_ne_slash {t2 : Tok} (ha : tokArith t2 = true)
    (hs : t2 ≠ .slash) (hd : t2 ≠ .dslash) :
    ∀ c, (tokStr t2).head? = some c → c ≠ '/' := by
  cases t2 <;> try simp_all [tokArith, tokStr] <;> try decide
  case intTok n =>
    intro c h
    have hdig := tokStr_int_digits (mem_of_head? h)
    rintro rfl
    simp at hdig

theorem chainOk_tail {t : Tok} {ts : List Tok} (h : chainOk (t :: ts) = true) :
    chainOk ts = true := by
  cases ts with
  | nil => rfl
  | cons b r =>
    rw [chainOk] at h
    exact (Bool.and_eq_true_iff.1 h).2

theorem chainOk_pair {t b : Tok} {ts : List Tok} (h : chainOk (t :: b :: ts) = true) :
    sepOk t b = true := by
  rw [chainOk] at h
  exact (Bool.and_eq_true_iff.1 h).1

theorem tokenizeAux_number {f : ℕ} {D cs : List Char} (hne : D ≠ [])
    (hdig : ∀ c ∈ D, c.isDigit = true)
    (hcs : ∀ c, cs.head? = some c → c.isDigit = false ∧ c ≠ '.') :
    tokenizeAux (f + 1) (D ++ cs) =
      if (D.map fun c => c.toNat - 48).head? = some 0 ∧
          natOfDigits (D.map fun c => c.toNat - 48) ≠ 0 then
        .error .syntaxError
      else
        consTok (Tok.intTok (natOfDigits (D.map fun c => c.toNat - 48)))
          (tokenizeAux f cs) := by
  obtain ⟨d, D', rfl⟩ : ∃ d D', D = d :: D' := by
    cases D with
    | nil => exact absurd rfl hne
    | cons d D' => exact ⟨d, D', rfl⟩
  have hd : d.isDigit = true := hdig d (List.mem_cons_self _ _)
  have hL := lexDigits_spec hdig (fun c h => (hcs c h).1)
  have hdot : ¬(cs.head? = some '.') := fun h => absurd rfl (hcs _ h).2
  rw [List.cons_append, tokenizeAux]
  simp only [List.cons_append] at hL
  simp only [hL, if_neg (digit_not_space hd), if_pos hd, if_neg hdot]

theorem tokenizeAux_render :
    ∀ (ts : List Tok) (fuel : ℕ),
      (∀ t ∈ ts, tokArith t = true) → chainOk ts = true →
      (renderToks ts).length < fuel →
      tokenizeAux fuel (renderToks ts) = .ok ts
  | [], fuel, _, _, hf => by
    cases fuel with
    | zero => omega
    | succ f => rfl
  | t :: rest, fuel, ha, hc, hf => by
    cases fuel with
    | zero => omega
    | succ f =>
      have hart : tokArith t = true := ha t (List.mem_cons_self _ _)
      have harest : ∀ u ∈ rest, tokArith u = true :=
        fun u h => ha u (List.mem_cons_of_mem _ h)
      have hlen : (renderToks rest).length < f := by
        have h1 : renderToks (t :: rest) = tokStr t ++ renderToks rest := by
          rw [renderToks, List.flatMap_cons]
          rfl
        have h2 : tokStr t ≠ [] := tokStr_ne_nil hart
        have h3 : 1 ≤ (tokStr t).length := by
          cases hts : tokStr t with
          | nil => exact absurd hts h2
          | cons a l => simp
        rw [h1, List.length_append] at hf
        omega
      have IH := tokenizeAux_render rest f harest (chainOk_tail hc) hlen
      have hrender : renderToks (t :: rest) = tokStr t ++ renderToks rest := by
        rw [renderToks, List.flatMap_cons]
        rfl
      rw [hrender]
      cases t with
      | floatTok q => simp [tokArith] at hart
      | nameTok s => simp [tokArith] at hart
      | strTok s => simp [tokArith] at hart
      | comma => simp [tokArith] at hart
      | dot => simp [tokArith] at hart
      | lbrack => simp [tokArith] at hart
      | rbrack => simp [tokArith] at hart
      | plus =>
        have hstep : tokenizeAux (f + 1) ('+' :: renderToks rest) =
            consTok Tok.plus (tokenizeAux f (renderToks rest)) := rfl
        rw [show tokStr Tok.plus ++ renderToks rest = '+' :: renderToks rest from rfl,
          hstep, IH]
        rfl
      | minus =>
        have hstep : tokenizeAux (f + 1) ('-' :: renderToks rest) =
            consTok Tok.minus (tokenizeAux f (renderToks rest)) := rfl
        rw [show tokStr Tok.minus ++ renderToks rest = '-' :: renderToks rest from rfl,
          hstep, IH]
        rfl
      | percent =>
        have hstep : tokenizeAux (f + 1) ('%' :: renderToks rest) =
            consTok Tok.percent (tokenizeAux f (renderToks rest)) := rfl
        rw [show tokStr Tok.percent ++ renderToks rest = '%' :: renderToks rest from rfl,
          hstep, IH]
        rfl
      | lparen =>
        have hstep : tokenizeAux (f + 1) ('(' :: renderToks rest) =
            consTok Tok.lparen (tokenizeAux f (renderToks rest)) := rfl
        rw [show tokStr Tok.lparen ++ renderToks rest = '(' :: renderToks rest from rfl,
          hstep, IH]
        rfl
      | rparen =>
        have hstep : tokenizeAux (f + 1) (')' :: renderToks rest) =
            consTok Tok.rparen (tokenizeAux f (renderToks rest)) := rfl
        rw [show tokStr Tok.rparen ++ renderToks rest = ')' :: renderToks rest from rfl,
          hstep, IH]
        rfl
      | dstar =>
        have hstep : tokenizeAux (f + 1) ('*' :: '*' :: renderToks rest) =
            consTok Tok.dstar (tokenizeAux f (renderToks rest)) := rfl
        rw [show tokStr Tok.dstar ++ renderToks rest = '*' :: '*' :: renderToks rest from rfl,
          hstep, IH]
        rfl
      | dslash =>
        have hstep : tokenizeAux (f + 1) ('/' :: '/' :: renderToks rest) =
            consTok Tok.dslash (tokenizeAux f (renderToks rest)) := rfl
        rw [show tokStr Tok.dslash ++ renderToks rest = '/' :: '/' :: renderToks rest from rfl,
          hstep, IH]
        rfl
      | star =>
        have hstep : tokenizeAux (f + 1) ('*' :: renderToks rest) =
            (if (renderToks rest).head? = some '*' then
              consTok Tok.dstar (tokenizeAux f (renderToks rest).tail)
            else consTok Tok.star (tokenizeAux f (renderToks rest))) := rfl
        have hne : ¬((renderToks rest).head? = some '*') := by
          cases rest with
          | nil => simp [renderToks]
          | cons t2 rest2 =>
            have ht2 : tokArith t2 = true := harest t2 (List.mem_cons_self _ _)
            have hsep := chainOk_pair hc
            have hn1 : t2 ≠ .star := by
              rintro rfl
              simp [sepOk] at hsep
            have hn2 : t2 ≠ .dstar := by
              rintro rfl
              simp [sepOk] at hsep
            rw [render_cons_head (tokStr_ne_nil ht2)]
            intro h
            exact next_first_ne_star ht2 hn1 hn2 '*' h rfl
        rw [show tokStr Tok.star ++ renderToks rest = '*' :: renderToks rest from rfl,
          hstep, if_neg hne, IH]
        rfl
      | slash =>
        have hstep : tokenizeAux (f + 1) ('/' :: renderToks rest) =
            (if (renderToks rest).head? = some '/' then
              consTok Tok.dslash (tokenizeAux f (renderToks rest).tail)
            else consTok Tok.slash (tokenizeAux f (renderToks rest))) := rfl
        have hne : ¬((renderToks rest).head? = some '/') := by
          cases rest with
          | nil => simp [renderToks]
          | cons t2 rest2 =>
            have ht2 : tokArith t2 = true := harest t2 (List.mem_cons_self _ _)
            have hsep := chainOk_pair hc
            have hn1 : t2 ≠ .slash := by
              rintro rfl
              simp [sepOk] at hsep
            have hn2 : t2 ≠ .dslash := by
              rintro rfl
              simp [sepOk] at hsep
            rw [render_cons_head (tokStr_ne_nil ht2)]
            intro h
            exact next_first_ne_slash ht2 hn1 hn2 '/' h rfl
        rw [show tokStr Tok.slash ++ renderToks rest = '/' :: renderToks rest from rfl,
          hstep, if_neg hne, IH]
        rfl
      | intTok n =>
        have hdig : ∀ c ∈ tokStr (Tok.intTok n), c.isDigit = true :=
          fun c h => tokStr_int_digits h
        have hcs : ∀ c, (renderToks rest).head? = some c → c.isDigit = false ∧ c ≠ '.' := by
          cases rest with
          | nil => intro c h; simp [renderToks] at h
          | cons t2 rest2 =>
            have ht2 : tokArith t2 = true := harest t2 (List.mem_cons_self _ _)
            have hsep := chainOk_pair hc
            have hn1 : ∀ m, t2 ≠ .intTok m := by
              rintro m rfl
              simp [sepOk] at hsep
            rw [render_cons_head (tokStr_ne_nil ht2)]
            exact next_first_not_digit_dot ht2 hn1
        have hnum := tokenizeAux_number (f := f) (tokStr_ne_nil hart) hdig hcs
        rw [hnum]
        by_cases h0 : n = 0
        · subst h0
          rw [if_neg (by simp [tokStr, natOfDigits])]
          rw [show natOfDigits ((tokStr (Tok.intTok 0)).map fun c => c.toNat - 48) = 0 from rfl]
          rw [IH]
          rfl
        · have hmap : (tokStr (Tok.intTok n)).map (fun c => c.toNat - 48) =
              (Nat.digits 10 n).reverse := by
            simp only [tokStr, if_neg h0]
            exact digitChars_map_val
          have hval : natOfDigits ((tokStr (Tok.intTok n)).map fun c => c.toNat - 48) = n := by
            rw [hmap, natOfDigits_digits]
          have hlz : ¬(((tokStr (Tok.intTok n)).map fun c => c.toNat - 48).head? = some 0 ∧
              natOfDigits ((tokStr (Tok.intTok n)).map fun c => c.toNat - 48) ≠ 0) := by
            rw [hmap, List.head?_reverse]
            rintro ⟨hh, _⟩
            have hnil : Nat.digits 10 n ≠ [] := Nat.digits_ne_nil_iff_ne_zero.mpr h0
            rw [List.getLast?_eq_getLast _ hnil] at hh
            have := Nat.getLast_digit_ne_zero 10 h0
            simp at hh
            exact this hh
          rw [if_neg hlz, hval, IH]
          rfl

/-- Tokenizing the rendering of a separation-safe arithmetic token string
recovers exactly that token string. -/
theorem tokenize_render {ts : List Tok} (h1 : ∀ t ∈ ts, tokArith t = true)
    (h2 : chainOk ts = true) : tokenize (renderToks ts) = .ok ts :=
  tokenizeAux_render ts _ h1 h2 (Nat.lt_succ_self _)

/-! ## Printer well-formedness -/

theorem chainOk_append :
    ∀ {xs : List Tok} (ys : List Tok), chainOk xs = true → chainOk ys = true →
      (∀ a b, xs.getLast? = some a → ys.head? = some b → sepOk a b = true) →
      chainOk (xs ++ ys) = true
  | [], ys, _, hy, _ => hy
  | [x], ys, _, hy, hg => by
    cases ys with
    | nil => rfl
    | cons y ys2 =>
      show chainOk (x :: y :: ys2) = true
      rw [chainOk, Bool.and_eq_true_iff]
      exact ⟨hg x y rfl rfl, hy⟩
  | x1 :: x2 :: xs', ys, hx, hy, hg => by
    rw [chainOk, Bool.and_eq_true_iff] at hx
    have ih := @chainOk_append (x2 :: xs') ys hx.2 hy
      (fun a b ha hb => hg a b (by rw [List.getLast?_cons_cons]; exact ha) hb)
    show chainOk (x1 :: (x2 :: xs' ++ ys)) = true
    rw [show x2 :: xs' ++ ys = x2 :: (xs' ++ ys) from rfl, chainOk, Bool.and_eq_true_iff]
    exact ⟨hx.1, ih⟩

theorem startsOk_cases {ts : List Tok} (h : startsOk ts = true) :
    ∃ b, ts.head? = some b ∧
      (b = .lparen ∨ b = .minus ∨ b = .plus ∨ ∃ n, b = .intTok n) := by
  cases ts with
  | nil => simp [startsOk] at h
  | cons t rest =>
    refine ⟨t, rfl, ?_⟩
    cases t <;> simp [startsOk] at h ⊢

theorem endsOk_cases {ts : List Tok} (h : endsOk ts = true) :
    ∃ a, ts.getLast? = some a ∧ (a = .rparen ∨ ∃ n, a = .intTok n) := by
  rw [endsOk] at h
  cases hl : ts.getLast? with
  | none => rw [hl] at h; simp at h
  | some a =>
    rw [hl] at h
    refine ⟨a, rfl, ?_⟩
    cases a <;> simp at h ⊢

theorem chainOk_glue {A B : List Tok} {op : Tok}
    (hA : chainOk A = true) (hB : chainOk B = true)
    (heA : endsOk A = true) (hsB : startsOk B = true)
    (hop : op = .plus ∨ op = .minus ∨ op = .star ∨ op = .slash ∨ op = .percent ∨
      op = .dslash ∨ op = .dstar) :
    chainOk (A ++ op :: B) = true := by
  apply chainOk_append _ hA _ _
  · show chainOk ([op] ++ B) = true
    apply chainOk_append _ (by cases op <;> rfl) hB
    intro a b ha hb
    simp at ha
    subst ha
    obtain ⟨b2, hb2, hcases⟩ := startsOk_cases hsB
    rw [hb2] at hb
    injection hb with hb
    subst hb
    rcases hop with rfl | rfl | rfl | rfl | rfl | rfl | rfl <;>
      rcases hcases with rfl | rfl | rfl | ⟨n, rfl⟩ <;> rfl
  · intro a b ha hb
    simp at hb
    obtain ⟨a2, ha2, hacases⟩ := endsOk_cases heA
    rw [ha2] at ha
    injection ha with ha
    subst ha
    subst hb
    rcases hacases with rfl | ⟨n, rfl⟩ <;>
      rcases hop with rfl | rfl | rfl | rfl | rfl | rfl | rfl <;> rfl

theorem chainOk_sign {B : List Tok} {op : Tok} (hB : chainOk B = true)
    (hsB : startsOk B = true) (hop : op = .plus ∨ op = .minus) :
    chainOk (op :: B) = true := by
  show chainOk ([op] ++ B) = true
  apply chainOk_append _ (by cases op <;> rfl) hB
  intro a b ha hb
  simp at ha
  subst ha
  obtain ⟨b2, hb2, hcases⟩ := startsOk_cases hsB
  rw [hb2] at hb
  injection hb with hb
  subst hb
  rcases hop with rfl | rfl <;> rcases hcases with rfl | rfl | rfl | ⟨n, rfl⟩ <;> rfl

theorem tokWF_wrap {lvl p : ℕ} {ts : List Tok} (h : TokWF ts) :
    TokWF (wrapP lvl p ts) := by
  obtain ⟨ha, hc, hs, he, hn⟩ := h
  rw [wrapP]
  by_cases hle : lvl ≤ p
  · rw [if_pos hle]
    exact ⟨ha, hc, hs, he, hn⟩
  · rw [if_neg hle]
    refine ⟨?_, ?_, ?_, ?_, ?_⟩
    · intro t ht
      rcases List.mem_cons.1 ht with rfl | ht2
      · rfl
      · rcases List.mem_append.1 ht2 with h3 | h4
        · exact ha t h3
        · simp at h4
          subst h4
          rfl
    · show chainOk ([Tok.lparen] ++ (ts ++ [Tok.rparen])) = true
      refine @chainOk_append [Tok.lparen] _ rfl ?_ ?_
      · refine @chainOk_append ts _ hc rfl ?_
        intro a b h1 h2
        simp at h2
        subst h2
        cases a <;> rfl
      · intro a b h1 h2
        simp at h1
        subst h1
        cases b <;> rfl
    · rfl
    · show endsOk ((Tok.lparen :: ts) ++ [Tok.rparen]) = true
      rw [endsOk, List.getLast?_concat]
    · simp

theorem tokWF_num (n : ℕ) : TokWF [Tok.intTok n] :=
  ⟨fun t ht => by simp at ht; subst ht; rfl, rfl, rfl, rfl, by simp⟩

theorem startsOk_append_left {A ys : List Tok} (hs : startsOk A = true) (hn : A ≠ []) :
    startsOk (A ++ ys) = true := by
  cases A with
  | nil => exact absurd rfl hn
  | cons a rest => exact hs

theorem endsOk_append_right {A B : List Tok} {op : Tok} (he : endsOk B = true)
    (hn : B ≠ []) : endsOk (A ++ op :: B) = true := by
  rw [endsOk] at he ⊢
  rw [List.getLast?_append, List.getLast?_cons]
  cases hb : B.getLast? with
  | none =>
    rw [List.getLast?_eq_none_iff] at hb
    exact absurd hb hn
  | some x =>
    rw [hb] at he
    simp [hb]
    exact he

theorem tokWF_binop {A B : List Tok} {op : Tok} (hA : TokWF A) (hB : TokWF B)
    (hop : op = .plus ∨ op = .minus ∨ op = .star ∨ op = .slash ∨ op = .percent ∨
      op = .dslash ∨ op = .dstar) :
    TokWF (A ++ op :: B) := by
  obtain ⟨haA, hcA, hsA, heA, hnA⟩ := hA
  obtain ⟨haB, hcB, hsB, heB, hnB⟩ := hB
  refine ⟨?_, chainOk_glue hcA hcB heA hsB hop, startsOk_append_left hsA hnA,
    endsOk_append_right heB hnB, by simp [hnA]⟩
  intro t ht
  rcases List.mem_append.1 ht with h1 | h2
  · exact haA t h1
  · rcases List.mem_cons.1 h2 with rfl | h3
    · rcases hop with rfl | rfl | rfl | rfl | rfl | rfl | rfl <;> rfl
    · exact haB t h3

theorem tokWF_sign {B : List Tok} {op : Tok} (hB : TokWF B)
    (hop : op = .plus ∨ op = .minus) : TokWF (op :: B) := by
  obtain ⟨haB, hcB, hsB, heB, hnB⟩ := hB
  refine ⟨?_, chainOk_sign hcB hsB hop, ?_, ?_, by simp⟩
  · intro t ht
    rcases List.mem_cons.1 ht with rfl | h3
    · rcases hop with rfl | rfl <;> rfl
    · exact haB t h3
  · rcases hop with rfl | rfl <;> rfl
  · rw [endsOk, List.getLast?_cons]
    rw [endsOk] at heB
    cases hb : B.getLast? with
    | none =>
      rw [List.getLast?_eq_none_iff] at hb
      exact absurd hb hnB
    | some x =>
      rw [hb] at heB
      simp [hb]
      exact heB

theorem tokOf_wf : ∀ e : AExp, TokWF (tokOf e)
  | .num n => tokWF_num n
  | .add a b =>
    tokWF_binop (tokWF_wrap (tokOf_wf a)) (tokWF_wrap (tokOf_wf b)) (Or.inl rfl)
  | .sub a b =>
    tokWF_binop (tokWF_wrap (tokOf_wf a)) (tokWF_wrap (tokOf_wf b)) (Or.inr (Or.inl rfl))
  | .mul a b =>
    tokWF_binop (tokWF_wrap (tokOf_wf a)) (tokWF_wrap (tokOf_wf b))
      (Or.inr (Or.inr (Or.inl rfl)))
  | .div a b =>
    tokWF_binop (tokWF_wrap (tokOf_wf a)) (tokWF_wrap (tokOf_wf b))
      (Or.inr (Or.inr (Or.inr (Or.inl rfl))))
  | .mod a b =>
    tokWF_binop (tokWF_wrap (tokOf_wf a)) (tokWF_wrap (tokOf_wf b))
      (Or.inr (Or.inr (Or.inr (Or.inr (Or.inl rfl)))))
  | .floordiv a b =>
    tokWF_binop (tokWF_wrap (tokOf_wf a)) (tokWF_wrap (tokOf_wf b))
      (Or.inr (Or.inr (Or.inr (Or.inr (Or.inr (Or.inl rfl))))))
  | .pow a b =>
    tokWF_binop (tokWF_wrap (tokOf_wf a)) (tokWF_wrap (tokOf_wf b))
      (Or.inr (Or.inr (Or.inr (Or.inr (Or.inr (Or.inr rfl))))))
  | .neg a => tokWF_sign (tokWF_wrap (tokOf_wf a)) (Or.inr rfl)
  | .pos a => tokWF_sign (tokWF_wrap (tokOf_wf a)) (Or.inl rfl)

/-! ## Desugaring is the identity on printed arithmetic -/

theorem replaceCaret_eq_self : ∀ {l : List Char}, (∀ c ∈ l, c ≠ '^') → replaceCaret l = l
  | [], _ => rfl
  | a :: t, h => by
    have ha : a ≠ '^' := h a (List.mem_cons_self _ _)
    have ih := replaceCaret_eq_self (fun c hc => h c (List.mem_cons_of_mem _ hc))
    simp only [replaceCaret, List.flatMap_cons, if_neg ha]
    simp only [replaceCaret] at ih
    rw [ih]
    rfl

theorem foldl_desugarStep_id :
    ∀ (l out : List Char), (∀ c ∈ l, c ≠ '!') → l.foldl desugarStep out = out ++ l
  | [], out, _ => by simp
  | ch :: t, out, h => by
    have hch : ch ≠ '!' := h ch (List.mem_cons_self _ _)
    have ih := foldl_desugarStep_id t (desugarStep out ch)
      (fun c hc => h c (List.mem_cons_of_mem _ hc))
    rw [List.foldl_cons, ih, desugarStep, if_neg hch]
    simp

theorem desugar_eq_self {s : String} (hb : ∀ c ∈ s.data, c ≠ '!')
    (hc : ∀ c ∈ s.data, c ≠ '^') : desugar s = s := by
  obtain ⟨d⟩ := s
  show (⟨desugarChars d⟩ : String) = ⟨d⟩
  rw [desugarChars, replaceCaret_eq_self hc, foldl_desugarStep_id d [] hb]
  rfl

theorem render_char_good {c : Char} {ts : List Tok}
    (ha : ∀ t ∈ ts, tokArith t = true) (h : c ∈ renderToks ts) :
    c ≠ '!' ∧ c ≠ '^' := by
  rw [renderToks, List.mem_flatMap] at h
  obtain ⟨t, ht, hc⟩ := h
  have hat := ha t ht
  cases t with
  | intTok n =>
    have hd := tokStr_int_digits hc
    constructor <;> (rintro rfl; simp at hd)
  | floatTok q => simp [tokArith] at hat
  | nameTok s => simp [tokArith] at hat
  | strTok s => simp [tokArith] at hat
  | comma => simp [tokArith] at hat
  | dot => simp [tokArith] at hat
  | lbrack => simp [tokArith] at hat
  | rbrack => simp [tokArith] at hat
  | plus => simp [tokStr] at hc; subst hc; exact ⟨by decide, by decide⟩
  | minus => simp [tokStr] at hc; subst hc; exact ⟨by decide, by decide⟩
  | star => simp [tokStr] at hc; subst hc; exact ⟨by decide, by decide⟩
  | slash => simp [tokStr] at hc; subst hc; exact ⟨by decide, by decide⟩
  | dslash =>
    simp [tokStr] at hc
    rcases hc with rfl | rfl <;> exact ⟨by decide, by decide⟩
  | percent => simp [tokStr] at hc; subst hc; exact ⟨by decide, by decide⟩
  | dstar =>
    simp [tokStr] at hc
    rcases hc with rfl | rfl <;> exact ⟨by decide, by decide⟩
  | lparen => simp [tokStr] at hc; subst hc; exact ⟨by decide, by decide⟩
  | rparen => simp [tokStr] at hc; subst hc; exact ⟨by decide, by decide⟩

theorem desugar_render {ts : List Tok} (ha : ∀ t ∈ ts, tokArith t = true) :
    desugar ⟨renderToks ts⟩ = ⟨renderToks ts⟩ :=
  desugar_eq_self (fun c hc => (render_char_good ha hc).1)
    (fun c hc => (render_char_good ha hc).2)

/-! ## Parser correctness: follow sets, loop behaviour, spines -/

theorem isFT_of_isFA {r : List Tok} (h : isFA r = true) : isFT r = true := by
  cases r with
  | nil => rfl
  | cons t rest => cases t <;> simp [isFA, isFT] at h ⊢

theorem isFF_of_isFT {r : List Tok} (h : isFT r = true) : isFF r = true := by
  cases r with
  | nil => rfl
  | cons t rest => cases t <;> simp [isFT, isFF] at h ⊢

theorem isFP_of_isFF {r : List Tok} (h : isFF r = true) : isFP r = true := by
  cases r with
  | nil => rfl
  | cons t rest => cases t <;> simp [isFF, isFP] at h ⊢

theorem isFA_rparen {r : List Tok} : isFA (Tok.rparen :: r) = true := rfl

theorem parseArithLoop_stop {f : ℕ} {acc : Ast} {r : List Tok} (hr : isFA r = true) :
    parseArithLoop (f + 1) acc r = .ok (acc, r) := by
  cases r with
  | nil => rfl
  | cons t rest => cases t <;> first | rfl | simp [isFA] at hr

theorem parseTermLoop_stop {f : ℕ} {acc : Ast} {r : List Tok} (hr : isFT r = true) :
    parseTermLoop (f + 1) acc r = .ok (acc, r) := by
  cases r with
  | nil => rfl
  | cons t rest => cases t <;> first | rfl | simp [isFT] at hr

theorem parseTrailers_stop {f : ℕ} {a : Ast} {r : List Tok} (hr : isFP r = true) :
    parseTrailers (f + 1) a r = .ok (a, r) := by
  cases r with
  | nil => rfl
  | cons t rest => cases t <;> first | rfl | simp [isFP, isFF] at hr

theorem prec_pos (e : AExp) : 1 ≤ prec e := by
  cases e <;> simp [prec]

theorem tokAt_one (e : AExp) : tokAt 1 e = tokOf e := by
  rw [tokAt, wrapP, if_pos (prec_pos e)]

theorem tokAt_congr {l1 l2 : ℕ} (e : AExp) (h : l1 ≤ prec e ↔ l2 ≤ prec e) :
    tokAt l1 e = tokAt l2 e := by
  rw [tokAt, tokAt, wrapP, wrapP]
  by_cases h2 : l2 ≤ prec e
  · rw [if_pos h2, if_pos (h.2 h2)]
  · rw [if_neg h2, if_neg (fun h1 => h2 (h.1 h1))]

theorem addSpine_toks : ∀ e : AExp,
    tokAt 1 e = tokAt 2 (addSpine e).1 ++ addSpineToks (addSpine e).2
  | .add a b => by
    have ih := addSpine_toks a
    rw [tokAt_one, tokOf]
    show tokAt 1 a ++ Tok.plus :: tokAt 2 b = _
    rw [ih, addSpine]
    show _ = tokAt 2 (addSpine a).1 ++ addSpineToks ((addSpine a).2 ++ [(true, b)])
    simp [addSpineToks, addOpTok, List.flatMap_append, List.append_assoc]
  | .sub a b => by
    have ih := addSpine_toks a
    rw [tokAt_one, tokOf]
    show tokAt 1 a ++ Tok.minus :: tokAt 2 b = _
    rw [ih, addSpine]
    show _ = tokAt 2 (addSpine a).1 ++ addSpineToks ((addSpine a).2 ++ [(false, b)])
    simp [addSpineToks, addOpTok, List.flatMap_append, List.append_assoc]
  | .num n => by
    rw [show addSpine (.num n) = (.num n, []) from rfl]
    simp only [addSpineToks, List.flatMap_nil, List.append_nil]
    exact @tokAt_congr 1 2 _ (by simp [prec])
  | .mul a b => by
    rw [show addSpine (.mul a b) = (.mul a b, []) from rfl]
    simp only [addSpineToks, List.flatMap_nil, List.append_nil]
    exact @tokAt_congr 1 2 _ (by simp [prec])
  | .div a b => by
    rw [show addSpine (.div a b) = (.div a b, []) from rfl]
    simp only [addSpineToks, List.flatMap_nil, List.append_nil]
    exact @tokAt_congr 1 2 _ (by simp [prec])
  | .mod a b => by
    rw [show addSpine (.mod a b) = (.mod a b, []) from rfl]
    simp only [addSpineToks, List.flatMap_nil, List.append_nil]
    exact @tokAt_congr 1 2 _ (by simp [prec])
  | .floordiv a b => by
    rw [show addSpine (.floordiv a b) = (.floordiv a b, []) from rfl]
    simp only [addSpineToks, List.flatMap_nil, List.append_nil]
    exact @tokAt_congr 1 2 _ (by simp [prec])
  | .pow a b => by
    rw [show addSpine (.pow a b) = (.pow a b, []) from rfl]
    simp only [addSpineToks, List.flatMap_nil, List.append_nil]
    exact @tokAt_congr 1 2 _ (by simp [prec])
  | .neg a => by
    rw [show addSpine (.neg a) = (.neg a, []) from rfl]
    simp only [addSpineToks, List.flatMap_nil, List.append_nil]
    exact @tokAt_congr 1 2 _ (by simp [prec])
  | .pos a => by
    rw [show addSpine (.pos a) = (.pos a, []) from rfl]
    simp only [addSpineToks, List.flatMap_nil, List.append_nil]
    exact @tokAt_congr 1 2 _ (by simp [prec])

theorem addSpine_ast : ∀ e : AExp,
    astOf e = addSpineAst (astOf (addSpine e).1) (addSpine e).2
  | .add a b => by
    rw [astOf, addSpine_ast a, addSpine]
    show _ = addSpineAst (astOf (addSpine a).1) ((addSpine a).2 ++ [(true, b)])
    rw [addSpineAst, addSpineAst, List.foldl_append]
    rfl
  | .sub a b => by
    rw [astOf, addSpine_ast a, addSpine]
    show _ = addSpineAst (astOf (addSpine a).1) ((addSpine a).2 ++ [(false, b)])
    rw [addSpineAst, addSpineAst, List.foldl_append]
    rfl
  | .num n => rfl
  | .mul a b => rfl
  | .div a b => rfl
  | .mod a b => rfl
  | .floordiv a b => rfl
  | .pow a b => rfl
  | .neg a => rfl
  | .pos a => rfl

theorem addSpine_head_prec : ∀ e : AExp, 2 ≤ prec (addSpine e).1
  | .add a _ => addSpine_head_prec a
  | .sub a _ => addSpine_head_prec a
  | .num _ => by simp [addSpine, prec]
  | .mul _ _ => by simp [addSpine, prec]
  | .div _ _ => by simp [addSpine, prec]
  | .mod _ _ => by simp [addSpine, prec]
  | .floordiv _ _ => by simp [addSpine, prec]
  | .pow _ _ => by simp [addSpine, prec]
  | .neg _ => by simp [addSpine, prec]
  | .pos _ => by simp [addSpine, prec]

theorem addSpine_size : ∀ e : AExp,
    sizeOf (addSpine e).1 ≤ sizeOf e ∧ ∀ p ∈ (addSpine e).2, sizeOf p.2 < sizeOf e
  | .add a b => by
    have ih := addSpine_size a
    rw [addSpine]
    constructor
    · have := ih.1
      simp only []
      simp [AExp.add.sizeOf_spec]
      omega
    · intro p hp
      simp only [] at hp
      rcases List.mem_append.1 hp with h1 | h2
      · have := ih.2 p h1
        simp [AExp.add.sizeOf_spec]
        omega
      · simp at h2
        rw [h2]
        simp [AExp.add.sizeOf_spec]
  | .sub a b => by
    have ih := addSpine_size a
    rw [addSpine]
    constructor
    · have := ih.1
      simp only []
      simp [AExp.sub.sizeOf_spec]
      omega
    · intro p hp
      simp only [] at hp
      rcases List.mem_append.1 hp with h1 | h2
      · have := ih.2 p h1
        simp [AExp.sub.sizeOf_spec]
        omega
      · simp at h2
        rw [h2]
        simp [AExp.sub.sizeOf_spec]
  | .num n => by simp [addSpine]
  | .mul a b => by simp [addSpine]
  | .div a b => by simp [addSpine]
  | .mod a b => by simp [addSpine]
  | .floordiv a b => by simp [addSpine]
  | .pow a b => by simp [addSpine]
  | .neg a => by simp [addSpine]
  | .pos a => by simp [addSpine]

theorem termSpine_toks : ∀ e : AExp,
    tokAt 2 e = tokAt 3 (termSpine e).1 ++ termSpineToks (termSpine e).2
  | .mul a b => by
    have ih := termSpine_toks a
    rw [show tokAt 2 (AExp.mul a b) = tokOf (AExp.mul a b) from by
      rw [tokAt, wrapP, if_pos (by simp [prec])]]
    rw [tokOf]
    show tokAt 2 a ++ Tok.star :: tokAt 3 b = _
    rw [ih, termSpine]
    show _ = tokAt 3 (termSpine a).1 ++ termSpineToks ((termSpine a).2 ++ [(.mul, b)])
    simp [termSpineToks, termOpTok, List.flatMap_append, List.append_assoc]
  | .div a b => by
    have ih := termSpine_toks a
    rw [show tokAt 2 (AExp.div a b) = tokOf (AExp.div a b) from by
      rw [tokAt, wrapP, if_pos (by simp [prec])]]
    rw [tokOf]
    show tokAt 2 a ++ Tok.slash :: tokAt 3 b = _
    rw [ih, termSpine]
    show _ = tokAt 3 (termSpine a).1 ++ termSpineToks ((termSpine a).2 ++ [(.div, b)])
    simp [termSpineToks, termOpTok, List.flatMap_append, List.append_assoc]
  | .mod a b => by
    have ih := termSpine_toks a
    rw [show tokAt 2 (AExp.mod a b) = tokOf (AExp.mod a b) from by
      rw [tokAt, wrapP, if_pos (by simp [prec])]]
    rw [tokOf]
    show tokAt 2 a ++ Tok.percent :: tokAt 3 b = _
    rw [ih, termSpine]
    show _ = tokAt 3 (termSpine a).1 ++ termSpineToks ((termSpine a).2 ++ [(.mod, b)])
    simp [termSpineToks, termOpTok, List.flatMap_append, List.append_assoc]
  | .floordiv a b => by
    have ih := termSpine_toks a
    rw [show tokAt 2 (AExp.floordiv a b) = tokOf (AExp.floordiv a b) from by
      rw [tokAt, wrapP, if_pos (by simp [prec])]]
    rw [tokOf]
    show tokAt 2 a ++ Tok.dslash :: tokAt 3 b = _
    rw [ih, termSpine]
    show _ = tokAt 3 (termSpine a).1 ++ termSpineToks ((termSpine a).2 ++ [(.floordiv, b)])
    simp [termSpineToks, termOpTok, List.flatMap_append, List.append_assoc]
  | .num n => by
    rw [show termSpine (.num n) = (.num n, []) from rfl]
    simp only [termSpineToks, List.flatMap_nil, List.append_nil]
    exact @tokAt_congr 2 3 _ (by simp [prec])
  | .add a b => by
    rw [show termSpine (.add a b) = (.add a b, []) from rfl]
    simp only [termSpineToks, List.flatMap_nil, List.append_nil]
    exact @tokAt_congr 2 3 _ (by simp [prec])
  | .sub a b => by
    rw [show termSpine (.sub a b) = (.sub a b, []) from rfl]
    simp only [termSpineToks, List.flatMap_nil, List.append_nil]
    exact @tokAt_congr 2 3 _ (by simp [prec])
  | .pow a b => by
    rw [show termSpine (.pow a b) = (.pow a b, []) from rfl]
    simp only [termSpineToks, List.flatMap_nil, List.append_nil]
    exact @tokAt_congr 2 3 _ (by simp [prec])
  | .neg a => by
    rw [show termSpine (.neg a) = (.neg a, []) from rfl]
    simp only [termSpineToks, List.flatMap_nil, List.append_nil]
    exact @tokAt_congr 2 3 _ (by simp [prec])
  | .pos a => by
    rw [show termSpine (.pos a) = (.pos a, []) from rfl]
    simp only [termSpineToks, List.flatMap_nil, List.append_nil]
    exact @tokAt_congr 2 3 _ (by simp [prec])

theorem termSpine_ast : ∀ e : AExp,
    astOf e = termSpineAst (astOf (termSpine e).1) (termSpine e).2
  | .mul a b => by
    rw [astOf, termSpine_ast a, termSpine]
    show _ = termSpineAst (astOf (termSpine a).1) ((termSpine a).2 ++ [(.mul, b)])
    rw [termSpineAst, termSpineAst, List.foldl_append]
    rfl
  | .div a b => by
    rw [astOf, termSpine_ast a, termSpine]
    show _ = termSpineAst (astOf (termSpine a).1) ((termSpine a).2 ++ [(.div, b)])
    rw [termSpineAst, termSpineAst, List.foldl_append]
    rfl
  | .mod a b => by
    rw [astOf, termSpine_ast a, termSpine]
    show _ = termSpineAst (astOf (termSpine a).1) ((termSpine a).2 ++ [(.mod, b)])
    rw [termSpineAst, termSpineAst, List.foldl_append]
    rfl
  | .floordiv a b => by
    rw [astOf, termSpine_ast a, termSpine]
    show _ = termSpineAst (astOf (termSpine a).1) ((termSpine a).2 ++ [(.floordiv, b)])
    rw [termSpineAst, termSpineAst, List.foldl_append]
    rfl
  | .num n => rfl
  | .add a b => rfl
  | .sub a b => rfl
  | .pow a b => rfl
  | .neg a => rfl
  | .pos a => rfl

theorem termSpine_head_prec : ∀ e : AExp, prec (termSpine e).1 ≠ 2
  | .mul a _ => termSpine_head_prec a
  | .div a _ => termSpine_head_prec a
  | .mod a _ => termSpine_head_prec a
  | .floordiv a _ => termSpine_head_prec a
  | .num _ => by simp [termSpine, prec]
  | .add _ _ => by simp [termSpine, prec]
  | .sub _ _ => by simp [termSpine, prec]
  | .pow _ _ => by simp [termSpine, prec]
  | .neg _ => by simp [termSpine, prec]
  | .pos _ => by simp [termSpine, prec]

theorem termSpine_size : ∀ e : AExp,
    sizeOf (termSpine e).1 ≤ sizeOf e ∧ ∀ p ∈ (termSpine e).2, sizeOf p.2 < sizeOf e
  | .mul a b => by
    have ih := termSpine_size a
    rw [termSpine]
    constructor
    · have := ih.1
      simp [AExp.mul.sizeOf_spec]
      omega
    · intro p hp
      simp only [] at hp
      rcases List.mem_append.1 hp with h1 | h2
      · have := ih.2 p h1
        simp [AExp.mul.sizeOf_spec]
        omega
      · simp at h2
        rw [h2]
        simp [AExp.mul.sizeOf_spec]
  | .div a b => by
    have ih := termSpine_size a
    rw [termSpine]
    constructor
    · have := ih.1
      simp [AExp.div.sizeOf_spec]
      omega
    · intro p hp
      simp only [] at hp
      rcases List.mem_append.1 hp with h1 | h2
      · have := ih.2 p h1
        simp [AExp.div.sizeOf_spec]
        omega
      · simp at h2
        rw [h2]
        simp [AExp.div.sizeOf_spec]
  | .mod a b => by
    have ih := termSpine_size a
    rw [termSpine]
    constructor
    · have := ih.1
      simp [AExp.mod.sizeOf_spec]
      omega
    · intro p hp
      simp only [] at hp
      rcases List.mem_append.1 hp with h1 | h2
      · have := ih.2 p h1
        simp [AExp.mod.sizeOf_spec]
        omega
      · simp at h2
        rw [h2]
        simp [AExp.mod.sizeOf_spec]
  | .floordiv a b => by
    have ih := termSpine_size a
    rw [termSpine]
    constructor
    · have := ih.1
      simp [AExp.floordiv.sizeOf_spec]
      omega
    · intro p hp
      simp only [] at hp
      rcases List.mem_append.1 hp with h1 | h2
      · have := ih.2 p h1
        simp [AExp.floordiv.sizeOf_spec]
        omega
      · simp at h2
        rw [h2]
        simp [AExp.floordiv.sizeOf_spec]
  | .num n => by simp [termSpine]
  | .add a b => by simp [termSpine]
  | .sub a b => by simp [termSpine]
  | .pow a b => by simp [termSpine]
  | .neg a => by simp [termSpine]
  | .pos a => by simp [termSpine]

theorem termSpine_ops : ∀ e : AExp, ∀ p ∈ (termSpine e).2,
    p.1 = BinK.mul ∨ p.1 = BinK.div ∨ p.1 = BinK.mod ∨ p.1 = BinK.floordiv
  | .mul a b => by
    intro p hp
    rw [termSpine] at hp
    rcases List.mem_append.1 hp with h1 | h2
    · exact termSpine_ops a p h1
    · simp at h2
      rw [h2]
      exact Or.inl rfl
  | .div a b => by
    intro p hp
    rw [termSpine] at hp
    rcases List.mem_append.1 hp with h1 | h2
    · exact termSpine_ops a p h1
    · simp at h2
      rw [h2]
      exact Or.inr (Or.inl rfl)
  | .mod a b => by
    intro p hp
    rw [termSpine] at hp
    rcases List.mem_append.1 hp with h1 | h2
    · exact termSpine_ops a p h1
    · simp at h2
      rw [h2]
      exact Or.inr (Or.inr (Or.inl rfl))
  | .floordiv a b => by
    intro p hp
    rw [termSpine] at hp
    rcases List.mem_append.1 hp with h1 | h2
    · exact termSpine_ops a p h1
    · simp at h2
      rw [h2]
      exact Or.inr (Or.inr (Or.inr rfl))
  | .num n => by intro p hp; simp [termSpine] at hp
  | .add a b => by intro p hp; simp [termSpine] at hp
  | .sub a b => by intro p hp; simp [termSpine] at hp
  | .pow a b => by intro p hp; simp [termSpine] at hp
  | .neg a => by intro p hp; simp [termSpine] at hp
  | .pos a => by intro p hp; simp [termSpine] at hp

theorem loopA : ∀ (ps : List (Bool × AExp)), (∀ p ∈ ps, S2 p.2) →
    ∀ (f : ℕ) (acc : Ast) (r : List Tok), isFA r = true →
      20 * (addSpineToks ps ++ r).length + 23 ≤ f →
      parseArithLoop f acc (addSpineToks ps ++ r) = .ok (addSpineAst acc ps, r)
  | [], _, f, acc, r, hr, hf => by
    obtain ⟨f2, rfl⟩ : ∃ g, f = g + 1 := ⟨f - 1, by omega⟩
    rw [show addSpineToks [] ++ r = r from by simp [addSpineToks]]
    exact parseArithLoop_stop hr
  | (bop, t) :: ps2, hS, f, acc, r, hr, hf => by
    have hS2t : S2 t := hS (bop, t) (List.mem_cons_self _ _)
    have hrest : ∀ p ∈ ps2, S2 p.2 := fun p hp => hS p (List.mem_cons_of_mem _ hp)
    obtain ⟨f2, rfl⟩ : ∃ g, f = g + 1 := ⟨f - 1, by omega⟩
    have htoks : addSpineToks ((bop, t) :: ps2) ++ r =
        addOpTok bop :: (tokAt 2 t ++ (addSpineToks ps2 ++ r)) := by
      simp [addSpineToks, List.append_assoc]
    have hFT : isFT (addSpineToks ps2 ++ r) = true := by
      cases ps2 with
      | nil => simpa [addSpineToks] using isFT_of_isFA hr
      | cons q qs =>
        rw [show addSpineToks (q :: qs) ++ r =
            addOpTok q.1 :: (tokAt 2 q.2 ++ (addSpineToks qs ++ r)) from by
          simp [addSpineToks, List.append_assoc]]
        cases q.1 <;> simp [addOpTok, isFT]
    have hlen2 : 20 * (tokAt 2 t ++ (addSpineToks ps2 ++ r)).length + 24 ≤ f2 := by
      rw [htoks] at hf
      simp [List.length_append] at hf ⊢
      omega
    have hterm := hS2t f2 (addSpineToks ps2 ++ r) hFT hlen2
    have hlen3 : 20 * (addSpineToks ps2 ++ r).length + 23 ≤ f2 := by
      rw [htoks] at hf
      simp [List.length_append] at hf ⊢
      omega
    rw [htoks]
    cases bop with
    | true =>
      have hloop := loopA ps2 hrest f2 (.binop .add acc (astOf t)) r hr hlen3
      rw [show addOpTok true = Tok.plus from rfl]
      rw [parseArithLoop, hterm]
      exact hloop
    | false =>
      have hloop := loopA ps2 hrest f2 (.binop .sub acc (astOf t)) r hr hlen3
      rw [show addOpTok false = Tok.minus from rfl]
      rw [parseArithLoop, hterm]
      exact hloop

theorem loopT : ∀ (ps : List (BinK × AExp)), (∀ p ∈ ps, S3 p.2) →
    (∀ p ∈ ps, p.1 = BinK.mul ∨ p.1 = BinK.div ∨ p.1 = BinK.mod ∨ p.1 = BinK.floordiv) →
    ∀ (f : ℕ) (acc : Ast) (r : List Tok), isFT r = true →
      20 * (termSpineToks ps ++ r).length + 22 ≤ f →
      parseTermLoop f acc (termSpineToks ps ++ r) = .ok (termSpineAst acc ps, r)
  | [], _, _, f, acc, r, hr, hf => by
    obtain ⟨f2, rfl⟩ : ∃ g, f = g + 1 := ⟨f - 1, by omega⟩
    rw [show termSpineToks [] ++ r = r from by simp [termSpineToks]]
    exact parseTermLoop_stop hr
  | (k, t) :: ps2, hS, hK, f, acc, r, hr, hf => by
    have hS3t : S3 t := hS (k, t) (List.mem_cons_self _ _)
    have hrest : ∀ p ∈ ps2, S3 p.2 := fun p hp => hS p (List.mem_cons_of_mem _ hp)
    have hKrest : ∀ p ∈ ps2, p.1 = BinK.mul ∨ p.1 = BinK.div ∨ p.1 = BinK.mod ∨
        p.1 = BinK.floordiv := fun p hp => hK p (List.mem_cons_of_mem _ hp)
    obtain ⟨f2, rfl⟩ : ∃ g, f = g + 1 := ⟨f - 1, by omega⟩
    have htoks : termSpineToks ((k, t) :: ps2) ++ r =
        termOpTok k :: (tokAt 3 t ++ (termSpineToks ps2 ++ r)) := by
      simp [termSpineToks, List.append_assoc]
    have hFF : isFF (termSpineToks ps2 ++ r) = true := by
      cases ps2 with
      | nil => simpa [termSpineToks] using isFF_of_isFT hr
      | cons q qs =>
        rw [show termSpineToks (q :: qs) ++ r =
            termOpTok q.1 :: (tokAt 3 q.2 ++ (termSpineToks qs ++ r)) from by
          simp [termSpineToks, List.append_assoc]]
        rcases hK q (List.mem_cons_of_mem _ (List.mem_cons_self _ _)) with h | h | h | h <;>
          rw [h] <;> rfl
    have hlen2 : 20 * (tokAt 3 t ++ (termSpineToks ps2 ++ r)).length + 23 ≤ f2 := by
      rw [htoks] at hf
      simp [List.length_append] at hf ⊢
      omega
    have hterm := hS3t f2 (termSpineToks ps2 ++ r) hFF hlen2
    have hlen3 : 20 * (termSpineToks ps2 ++ r).length + 22 ≤ f2 := by
      rw [htoks] at hf
      simp [List.length_append] at hf ⊢
      omega
    have hloop := loopT ps2 hrest hKrest f2 (.binop k acc (astOf t)) r hr hlen3
    rw [htoks]
    rcases hK (k, t) (List.mem_cons_self _ _) with hk | hk | hk | hk <;>
      (simp only [] at hk; subst hk)
    · rw [show termOpTok BinK.mul = Tok.star from rfl]
      rw [parseTermLoop, hterm]
      exact hloop
    · rw [show termOpTok BinK.div = Tok.slash from rfl]
      rw [parseTermLoop, hterm]
      exact hloop
    · rw [show termOpTok BinK.mod = Tok.percent from rfl]
      rw [parseTermLoop, hterm]
      exact hloop
    · rw [show termOpTok BinK.floordiv = Tok.dslash from rfl]
      rw [parseTermLoop, hterm]
      exact hloop

theorem isFT_spineToks (ps : List (Bool × AExp)) (r : List Tok) (hr : isFA r = true) :
    isFT (addSpineToks ps ++ r) = true := by
  cases ps with
  | nil => simpa [addSpineToks] using isFT_of_isFA hr
  | cons q qs =>
    rw [show addSpineToks (q :: qs) ++ r =
        addOpTok q.1 :: (tokAt 2 q.2 ++ (addSpineToks qs ++ r)) from by
      simp [addSpineToks, List.append_assoc]]
    cases q.1 <;> rfl

theorem isFF_spineToksT (ps : List (BinK × AExp)) (r : List Tok) (hr : isFT r = true)
    (hops : ∀ p ∈ ps, p.1 = BinK.mul ∨ p.1 = BinK.div ∨ p.1 = BinK.mod ∨
      p.1 = BinK.floordiv) :
    isFF (termSpineToks ps ++ r) = true := by
  cases ps with
  | nil => simpa [termSpineToks] using isFF_of_isFT hr
  | cons q qs =>
    rw [show termSpineToks (q :: qs) ++ r =
        termOpTok q.1 :: (tokAt 3 q.2 ++ (termSpineToks qs ++ r)) from by
      simp [termSpineToks, List.append_assoc]]
    rcases hops q (List.mem_cons_self _ _) with h | h | h | h <;> rw [h] <;> rfl

theorem S1_of_S2 {e : AExp} (hp : 2 ≤ prec e) (h2 : S2 e) : S1 e := by
  intro f r hr hf
  obtain ⟨f2, rfl⟩ : ∃ g, f = g + 1 := ⟨f - 1, by omega⟩
  have heq : tokAt 1 e = tokAt 2 e := tokAt_congr _ (by omega)
  rw [heq] at hf ⊢
  rw [parseArith]
  rw [h2 f2 r (isFT_of_isFA hr) (by omega)]
  obtain ⟨f3, rfl⟩ : ∃ g, f2 = g + 1 := ⟨f2 - 1, by omega⟩
  exact parseArithLoop_stop hr

theorem S2_of_S3 {e : AExp} (hp : prec e ≠ 2) (h3 : S3 e) : S2 e := by
  intro f r hr hf
  obtain ⟨f2, rfl⟩ : ∃ g, f = g + 1 := ⟨f - 1, by omega⟩
  have heq : tokAt 2 e = tokAt 3 e := tokAt_congr _ (by omega)
  rw [heq] at hf ⊢
  rw [parseTerm]
  rw [h3 f2 r (isFF_of_isFT hr) (by omega)]
  obtain ⟨f3, rfl⟩ : ∃ g, f2 = g + 1 := ⟨f2 - 1, by omega⟩
  exact parseTermLoop_stop hr

theorem eq_num_of_prec5 {a : AExp} (h : 5 ≤ prec a) : ∃ n, a = .num n := by
  cases a <;> simp [prec] at h ⊢

theorem tokOf_head_high : ∀ e : AExp, 4 ≤ prec e →
    ∃ t rest, tokOf e = t :: rest ∧ (t = Tok.lparen ∨ ∃ n, t = Tok.intTok n)
  | .num n, _ => ⟨.intTok n, [], rfl, Or.inr ⟨n, rfl⟩⟩
  | .pow a b, _ => by
    rw [tokOf, wrapP]
    by_cases h5 : 5 ≤ prec a
    · obtain ⟨n, rfl⟩ := eq_num_of_prec5 h5
      rw [if_pos h5]
      exact ⟨.intTok n, _, rfl, Or.inr ⟨n, rfl⟩⟩
    · rw [if_neg h5]
      exact ⟨.lparen, _, rfl, Or.inl rfl⟩
  | .add a b, h => by simp [prec] at h
  | .sub a b, h => by simp [prec] at h
  | .mul a b, h => by simp [prec] at h
  | .div a b, h => by simp [prec] at h
  | .mod a b, h => by simp [prec] at h
  | .floordiv a b, h => by simp [prec] at h
  | .neg a, h => by simp [prec] at h
  | .pos a, h => by simp [prec] at h

theorem parseFactor_delegate {f2 : ℕ} {t : Tok} {rest : List Tok}
    (ht : t = Tok.lparen ∨ ∃ n, t = Tok.intTok n) :
    parseFactor (f2 + 1) (t :: rest) = parsePower f2 (t :: rest) := by
  rcases ht with rfl | ⟨n, rfl⟩ <;> rfl

theorem S3_of_S4 {e : AExp} (hp : prec e ≠ 3) (h4 : S4 e) : S3 e := by
  intro f r hr hf
  obtain ⟨f2, rfl⟩ : ∃ g, f = g + 1 := ⟨f - 1, by omega⟩
  have heq : tokAt 3 e = tokAt 4 e := tokAt_congr _ (by omega)
  rw [heq] at hf ⊢
  have hsh : ∃ t rest, tokAt 4 e = t :: rest ∧
      (t = Tok.lparen ∨ ∃ n, t = Tok.intTok n) := by
    by_cases hge : 4 ≤ prec e
    · obtain ⟨t, rest, htoks, hcases⟩ := tokOf_head_high e hge
      exact ⟨t, rest, by rw [tokAt, wrapP, if_pos hge, htoks], hcases⟩
    · exact ⟨.lparen, tokOf e ++ [Tok.rparen], by rw [tokAt, wrapP, if_neg hge], Or.inl rfl⟩
  obtain ⟨t, rest, hshape, hcases⟩ := hsh
  have h4' := h4 f2 r hr (by omega)
  calc parseFactor (f2 + 1) (tokAt 4 e ++ r)
      = parseFactor (f2 + 1) (t :: (rest ++ r)) := by rw [hshape]; rfl
    _ = parsePower f2 (t :: (rest ++ r)) := parseFactor_delegate hcases
    _ = parsePower f2 (tokAt 4 e ++ r) := by rw [hshape]; rfl
    _ = .ok (astOf e, r) := h4'

theorem S4_of_S5 {e : AExp} (hp : prec e ≠ 4) (h5 : S5 e) : S4 e := by
  intro f r hr hf
  obtain ⟨f2, rfl⟩ : ∃ g, f = g + 1 := ⟨f - 1, by omega⟩
  have heq : tokAt 4 e = tokAt 5 e := tokAt_congr _ (by omega)
  rw [heq] at hf ⊢
  rw [parsePower]
  rw [h5 f2 r (isFP_of_isFF hr) (by omega)]
  cases r with
  | nil => rfl
  | cons t rest => cases t <;> first | rfl | simp [isFF] at hr

theorem S5_paren {e : AExp} (hp : prec e < 5) (h1 : S1 e) : S5 e := by
  intro f r hr hf
  obtain ⟨f2, rfl⟩ : ∃ g, f = g + 1 := ⟨f - 1, by omega⟩
  have hshape : tokAt 5 e = Tok.lparen :: (tokOf e ++ [Tok.rparen]) := by
    rw [tokAt, wrapP, if_neg (by omega)]
  rw [hshape] at hf ⊢
  simp only [List.length_append, List.length_cons] at hf
  obtain ⟨f3, rfl⟩ : ∃ g, f2 = g + 1 := ⟨f2 - 1, by omega⟩
  rw [parsePrimary]
  have hinner : parseAtom (f3 + 1) ((Tok.lparen :: (tokOf e ++ [Tok.rparen])) ++ r) =
      .ok (astOf e, r) := by
    have hX : (Tok.lparen :: (tokOf e ++ [Tok.rparen])) ++ r =
        Tok.lparen :: (tokAt 1 e ++ (Tok.rparen :: r)) := by
      rw [tokAt_one]
      simp [List.append_assoc]
    rw [hX, parseAtom]
    rw [h1 f3 (Tok.rparen :: r) rfl
      (by rw [tokAt_one]; simp [List.length_append]; omega)]
  rw [hinner]
  exact parseTrailers_stop hr

theorem S5_num (n : ℕ) : S5 (.num n) := by
  intro f r hr hf
  obtain ⟨f2, rfl⟩ : ∃ g, f = g + 1 := ⟨f - 1, by omega⟩
  obtain ⟨f3, rfl⟩ : ∃ g, f2 = g + 1 := ⟨f2 - 1, by simp at hf; omega⟩
  have hshape : tokAt 5 (AExp.num n) = [Tok.intTok n] := by
    rw [tokAt, wrapP, if_pos (by simp [prec])]
    rfl
  rw [hshape]
  rw [show [Tok.intTok n] ++ r = Tok.intTok n :: r from rfl]
  rw [parsePrimary]
  rw [show parseAtom (f3 + 1) (Tok.intTok n :: r) = .ok (.intLit n, r) from rfl]
  exact parseTrailers_stop hr

theorem S3_neg {a : AExp} (h3a : S3 a) : S3 (.neg a) := by
  intro f r hr hf
  obtain ⟨f2, rfl⟩ : ∃ g, f = g + 1 := ⟨f - 1, by omega⟩
  have hshape : tokAt 3 (AExp.neg a) = Tok.minus :: tokAt 3 a := by
    rw [tokAt, wrapP, if_pos (by simp [prec])]
    rfl
  rw [hshape]
  rw [show (Tok.minus :: tokAt 3 a) ++ r = Tok.minus :: (tokAt 3 a ++ r) from rfl]
  rw [parseFactor]
  rw [h3a f2 r hr (by rw [hshape] at hf; simp [List.length_append] at hf ⊢; omega)]
  rfl

theorem S3_pos {a : AExp} (h3a : S3 a) : S3 (.pos a) := by
  intro f r hr hf
  obtain ⟨f2, rfl⟩ : ∃ g, f = g + 1 := ⟨f - 1, by omega⟩
  have hshape : tokAt 3 (AExp.pos a) = Tok.plus :: tokAt 3 a := by
    rw [tokAt, wrapP, if_pos (by simp [prec])]
    rfl
  rw [hshape]
  rw [show (Tok.plus :: tokAt 3 a) ++ r = Tok.plus :: (tokAt 3 a ++ r) from rfl]
  rw [parseFactor]
  rw [h3a f2 r hr (by rw [hshape] at hf; simp [List.length_append] at hf ⊢; omega)]
  rfl

theorem S4_pow {a b : AExp} (h5a : S5 a) (h3b : S3 b) : S4 (.pow a b) := by
  intro f r hr hf
  obtain ⟨f2, rfl⟩ : ∃ g, f = g + 1 := ⟨f - 1, by omega⟩
  have hshape : tokAt 4 (AExp.pow a b) = tokAt 5 a ++ Tok.dstar :: tokAt 3 b := by
    rw [tokAt, wrapP, if_pos (by simp [prec])]
    rfl
  rw [hshape] at hf ⊢
  simp only [List.length_append, List.length_cons] at hf
  rw [parsePower]
  have hX : (tokAt 5 a ++ Tok.dstar :: tokAt 3 b) ++ r =
      tokAt 5 a ++ (Tok.dstar :: (tokAt 3 b ++ r)) := by
    simp [List.append_assoc]
  rw [hX]
  rw [h5a f2 (Tok.dstar :: (tokAt 3 b ++ r)) rfl (by simp [List.length_append]; omega)]
  have hb := h3b f2 r hr (by simp [List.length_append]; omega)
  show (match parseFactor f2 (tokAt 3 b ++ r) with
    | Except.error e => Except.error e
    | Except.ok (b2, r3) => Except.ok (Ast.binop BinK.pow (astOf a) b2, r3)) =
    Except.ok (astOf (AExp.pow a b), r)
  rw [hb]
  rfl

theorem S1_spine (e : AExp) (hhead : S2 (addSpine e).1)
    (hps : ∀ p ∈ (addSpine e).2, S2 p.2) : S1 e := by
  intro f r hr hf
  obtain ⟨f2, rfl⟩ : ∃ g, f = g + 1 := ⟨f - 1, by omega⟩
  rw [addSpine_toks e] at hf ⊢
  rw [List.append_assoc] at hf ⊢
  simp only [List.length_append] at hf
  rw [parseArith]
  rw [hhead f2 (addSpineToks (addSpine e).2 ++ r) (isFT_spineToks _ _ hr)
    (by simp [List.length_append]; omega)]
  rw [addSpine_ast e]
  exact loopA _ hps f2 _ r hr (by simp [List.length_append]; omega)

theorem S2_spine (e : AExp) (hhead : S3 (termSpine e).1)
    (hps : ∀ p ∈ (termSpine e).2, S3 p.2) : S2 e := by
  intro f r hr hf
  obtain ⟨f2, rfl⟩ : ∃ g, f = g + 1 := ⟨f - 1, by omega⟩
  rw [termSpine_toks e] at hf ⊢
  rw [List.append_assoc] at hf ⊢
  simp only [List.length_append] at hf
  rw [parseTerm]
  rw [hhead f2 (termSpineToks (termSpine e).2 ++ r)
    (isFF_spineToksT _ _ hr (termSpine_ops e)) (by simp [List.length_append]; omega)]
  rw [termSpine_ast e]
  exact loopT _ hps (termSpine_ops e) f2 _ r hr (by simp [List.length_append]; omega)

theorem parse_levels_aux :
    ∀ (n : ℕ) (e : AExp), sizeOf e < n → S1 e ∧ S2 e ∧ S3 e ∧ S4 e ∧ S5 e
  | 0, _, h => absurd h (Nat.not_lt_zero _)
  | n + 1, e, h => by
    have IH : ∀ x : AExp, sizeOf x < sizeOf e → S1 x ∧ S2 x ∧ S3 x ∧ S4 x ∧ S5 x :=
      fun x hx => parse_levels_aux n x (by omega)
    cases e with
    | num m =>
      have h5 := S5_num m
      have h4 := S4_of_S5 (by simp [prec]) h5
      have h3 := S3_of_S4 (by simp [prec]) h4
      have h2 := S2_of_S3 (by simp [prec]) h3
      have h1 := S1_of_S2 (by simp [prec]) h2
      exact ⟨h1, h2, h3, h4, h5⟩
    | add a b =>
      have hhead : S2 (addSpine (AExp.add a b)).1 := by
        rw [addSpine]
        refine (IH (addSpine a).1 ?_).2.1
        have := (addSpine_size a).1
        simp [AExp.add.sizeOf_spec]
        omega
      have hps : ∀ p ∈ (addSpine (AExp.add a b)).2, S2 p.2 := by
        rw [addSpine]
        intro p hp
        rcases List.mem_append.1 hp with h1 | h2
        · refine (IH p.2 ?_).2.1
          have := (addSpine_size a).2 p h1
          simp [AExp.add.sizeOf_spec]
          omega
        · simp at h2
          rw [h2]
          refine (IH b ?_).2.1
          simp [AExp.add.sizeOf_spec]
      have h1 := S1_spine _ hhead hps
      have h5 := S5_paren (by simp [prec]) h1
      have h4 := S4_of_S5 (by simp [prec]) h5
      have h3 := S3_of_S4 (by simp [prec]) h4
      have h2 := S2_of_S3 (by simp [prec]) h3
      exact ⟨h1, h2, h3, h4, h5⟩
    | sub a b =>
      have hhead : S2 (addSpine (AExp.sub a b)).1 := by
        rw [addSpine]
        refine (IH (addSpine a).1 ?_).2.1
        have := (addSpine_size a).1
        simp [AExp.sub.sizeOf_spec]
        omega
      have hps : ∀ p ∈ (addSpine (AExp.sub a b)).2, S2 p.2 := by
        rw [addSpine]
        intro p hp
        rcases List.mem_append.1 hp with h1 | h2
        · refine (IH p.2 ?_).2.1
          have := (addSpine_size a).2 p h1
          simp [AExp.sub.sizeOf_spec]
          omega
        · simp at h2
          rw [h2]
          refine (IH b ?_).2.1
          simp [AExp.sub.sizeOf_spec]
      have h1 := S1_spine _ hhead hps
      have h5 := S5_paren (by simp [prec]) h1
      have h4 := S4_of_S5 (by simp [prec]) h5
      have h3 := S3_of_S4 (by simp [prec]) h4
      have h2 := S2_of_S3 (by simp [prec]) h3
      exact ⟨h1, h2, h3, h4, h5⟩
    | mul a b =>
      have hhead : S3 (termSpine (AExp.mul a b)).1 := by
        rw [termSpine]
        refine (IH (termSpine a).1 ?_).2.2.1
        have := (termSpine_size a).1
        simp [AExp.mul.sizeOf_spec]
        omega
      have hps : ∀ p ∈ (termSpine (AExp.mul a b)).2, S3 p.2 := by
        rw [termSpine]
        intro p hp
        rcases List.mem_append.1 hp with h1 | h2
        · refine (IH p.2 ?_).2.2.1
          have := (termSpine_size a).2 p h1
          simp [AExp.mul.sizeOf_spec]
          omega
        · simp at h2
          rw [h2]
          refine (IH b ?_).2.2.1
          simp [AExp.mul.sizeOf_spec]
      have h2 := S2_spine _ hhead hps
      have h1 := S1_of_S2 (by simp [prec]) h2
      have h5 := S5_paren (by simp [prec]) h1
      have h4 := S4_of_S5 (by simp [prec]) h5
      have h3 := S3_of_S4 (by simp [prec]) h4
      exact ⟨h1, h2, h3, h4, h5⟩
    | div a b =>
      have hhead : S3 (termSpine (AExp.div a b)).1 := by
        rw [termSpine]
        refine (IH (termSpine a).1 ?_).2.2.1
        have := (termSpine_size a).1
        simp [AExp.div.sizeOf_spec]
        omega
      have hps : ∀ p ∈ (termSpine (AExp.div a b)).2, S3 p.2 := by
        rw [termSpine]
        intro p hp
        rcases List.mem_append.1 hp with h1 | h2
        · refine (IH p.2 ?_).2.2.1
          have := (termSpine_size a).2 p h1
          simp [AExp.div.sizeOf_spec]
          omega
        · simp at h2
          rw [h2]
          refine (IH b ?_).2.2.1
          simp [AExp.div.sizeOf_spec]
      have h2 := S2_spine _ hhead hps
      have h1 := S1_of_S2 (by simp [prec]) h2
      have h5 := S5_paren (by simp [prec]) h1
      have h4 := S4_of_S5 (by simp [prec]) h5
      have h3 := S3_of_S4 (by simp [prec]) h4
      exact ⟨h1, h2, h3, h4, h5⟩
    | mod a b =>
      have hhead : S3 (termSpine (AExp.mod a b)).1 := by
        rw [termSpine]
        refine (IH (termSpine a).1 ?_).2.2.1
        have := (termSpine_size a).1
        simp [AExp.mod.sizeOf_spec]
        omega
      have hps : ∀ p ∈ (termSpine (AExp.mod a b)).2, S3 p.2 := by
        rw [termSpine]
        intro p hp
        rcases List.mem_append.1 hp with h1 | h2
        · refine (IH p.2 ?_).2.2.1
          have := (termSpine_size a).2 p h1
          simp [AExp.mod.sizeOf_spec]
          omega
        · simp at h2
          rw [h2]
          refine (IH b ?_).2.2.1
          simp [AExp.mod.sizeOf_spec]
      have h2 := S2_spine _ hhead hps
      have h1 := S1_of_S2 (by simp [prec]) h2
      have h5 := S5_paren (by simp [prec]) h1
      have h4 := S4_of_S5 (by simp [prec]) h5
      have h3 := S3_of_S4 (by simp [prec]) h4
      exact ⟨h1, h2, h3, h4, h5⟩
    | floordiv a b =>
      have hhead : S3 (termSpine (AExp.floordiv a b)).1 := by
        rw [termSpine]
        refine (IH (termSpine a).1 ?_).2.2.1
        have := (termSpine_size a).1
        simp [AExp.floordiv.sizeOf_spec]
        omega
      have hps : ∀ p ∈ (termSpine (AExp.floordiv a b)).2, S3 p.2 := by
        rw [termSpine]
        intro p hp
        rcases List.mem_append.1 hp with h1 | h2
        · refine (IH p.2 ?_).2.2.1
          have := (termSpine_size a).2 p h1
          simp [AExp.floordiv.sizeOf_spec]
          omega
        · simp at h2
          rw [h2]
          refine (IH b ?_).2.2.1
          simp [AExp.floordiv.sizeOf_spec]
      have h2 := S2_spine _ hhead hps
      have h1 := S1_of_S2 (by simp [prec]) h2
      have h5 := S5_paren (by simp [prec]) h1
      have h4 := S4_of_S5 (by simp [prec]) h5
      have h3 := S3_of_S4 (by simp [prec]) h4
      exact ⟨h1, h2, h3, h4, h5⟩
    | pow a b =>
      have ha := IH a (by simp [AExp.pow.sizeOf_spec]; omega)
      have hb := IH b (by simp [AExp.pow.sizeOf_spec])
      have h4 := S4_pow ha.2.2.2.2 hb.2.2.1
      have h3 := S3_of_S4 (by simp [prec]) h4
      have h2 := S2_of_S3 (by simp [prec]) h3
      have h1 := S1_of_S2 (by simp [prec]) h2
      have h5 := S5_paren (by simp [prec]) h1
      exact ⟨h1, h2, h3, h4, h5⟩
    | neg a =>
      have ha := IH a (by simp [AExp.neg.sizeOf_spec])
      have h3 := S3_neg ha.2.2.1
      have h2 := S2_of_S3 (by simp [prec]) h3
      have h1 := S1_of_S2 (by simp [prec]) h2
      have h5 := S5_paren (by simp [prec]) h1
      have h4 := S4_of_S5 (by simp [prec]) h5
      exact ⟨h1, h2, h3, h4, h5⟩
    | pos a =>
      have ha := IH a (by simp [AExp.pos.sizeOf_spec])
      have h3 := S3_pos ha.2.2.1
      have h2 := S2_of_S3 (by simp [prec]) h3
      have h1 := S1_of_S2 (by simp [prec]) h2
      have h5 := S5_paren (by simp [prec]) h1
      have h4 := S4_of_S5 (by simp [prec]) h5
      exact ⟨h1, h2, h3, h4, h5⟩

/-- Parsing the printed tokens of an arithmetic expression yields exactly its
standard-precedence reading. -/
theorem parseExpr_tokOf (e : AExp) : parseExpr (tokOf e) = .ok (astOf e) := by
  have h1 := (parse_levels_aux (sizeOf e + 1) e (Nat.lt_succ_self _)).1
  rw [parseExpr]
  have h := h1 (parseFuel (tokOf e)) [] rfl
    (by rw [parseFuel, tokAt_one]; simp)
  rw [tokAt_one] at h
  rw [List.append_nil] at h
  rw [h]

/-- The full pipeline on printed arithmetic: desugaring is the identity,
tokenizing recovers the printed tokens, parsing recovers the
standard-precedence tree, so evaluation agrees with the tree walk of the
standard reading. -/
theorem safe_eval_print (o : Oracle) (e : AExp) :
    safe_eval o (printAExp e) = visit o (astOf e) := by
  have hwf := tokOf_wf e
  rw [printAExp, safe_eval]
  rw [desugar_render hwf.1]
  rw [show (⟨renderToks (tokOf e)⟩ : String).data = renderToks (tokOf e) from rfl]
  rw [tokenize_render hwf.1 hwf.2.1]
  show (match parseExpr (tokOf e) with
    | Except.error e2 => Except.error e2
    | Except.ok a => visit o a) = visit o (astOf e)
  rw [parseExpr_tokOf]

/-! ## Claim theorems -/

/-- C1 (counterexample): evaluating `"3!!"` does not yield `720`.  The second
`!` backward-scans only the parenthesised span `(3)` of the emitted
`factorial(3)`, prepending another `factorial` directly to it, so the
desugared string is `factorialfactorial(3)` — a call to a name outside the
whitelist — and evaluation fails with the restricted-call error. -/
theorem spec_c1_counterexample :
    safe_eval oracle0 "3!!" ≠ .ok (.int 720) ∧
    desugar "3!!" = "factorialfactorial(3)" ∧
    safe_eval oracle0 "3!!" = .error .restrictedCall := by
  decide

/-- C1 (amended): `"5!"` and `"(2+3)!"` evaluate to `120` under every oracle,
but a `!` immediately following a closing parenthesis wraps only the
parenthesised span — not a preceding call — so `"3!!"` desugars to
`"factorialfactorial(3)"` and fails with the restricted-call error instead
of evaluating to `720`. -/
theorem spec_c1_theorem :
    ∀ o : Oracle,
      safe_eval o "5!" = .ok (.int 120) ∧
      safe_eval o "(2+3)!" = .ok (.int 120) ∧
      desugar "3!!" = "factorialfactorial(3)" ∧
      safe_eval o "3!!" = .error .restrictedCall :=
  fun _ => ⟨rfl, rfl, rfl, rfl⟩

/-- C2: dividing any integer or float literal by the literal `0` with `/`,
`%` or `//` is the classified zero-division failure (the `ZeroDivisionError`
of the host operators), never an infinity value and never an unclassified
outcome; in particular `"10/0"`, `"10%0"` and `"10//0"` all fail that way. -/
theorem spec_c2_theorem :
    ∀ (o : Oracle) (n : ℤ) (q : ℚ),
      visit o (.binop .div (.intLit n) (.intLit 0)) = .error .zeroDivision ∧
      visit o (.binop .mod (.intLit n) (.intLit 0)) = .error .zeroDivision ∧
      visit o (.binop .floordiv (.intLit n) (.intLit 0)) = .error .zeroDivision ∧
      visit o (.binop .div (.floatLit q) (.intLit 0)) = .error .zeroDivision ∧
      visit o (.binop .mod (.floatLit q) (.intLit 0)) = .error .zeroDivision ∧
      visit o (.binop .floordiv (.floatLit q) (.intLit 0)) = .error .zeroDivision ∧
      safe_eval o "10/0" = .error .zeroDivision ∧
      safe_eval o "10%0" = .error .zeroDivision ∧
      safe_eval o "10//0" = .error .zeroDivision :=
  fun _ _ _ => ⟨rfl, rfl, rfl, rfl, rfl, rfl, rfl, rfl, rfl⟩

/-- C3 (counterexample): the bare identifier `"sin"`, whose table entry is a
callable, does not fail — evaluation succeeds and returns the function
object itself. -/
theorem spec_c3_counterexample :
    safe_eval oracle0 "sin" = .ok (.func "sin") := by
  decide

/-- C3 (amended): a bare identifier resolves against the whole `MATH_FUNCS`
table, not just its constant subset: a name bound to a callable returns the
function object itself (not an error), a constant name returns its numeric
value, and only a name absent from the table fails (with the
name-not-allowed error). -/
theorem spec_c3_theorem :
    ∀ (o : Oracle) (n : String),
      (MATH_FUNCS n = some .fn → visit o (.name n) = .ok (.func n)) ∧
      (∀ v, MATH_FUNCS n = some (.constant v) → visit o (.name n) = .ok (.float v)) ∧
      (MATH_FUNCS n = Option.none → visit o (.name n) = .error (.nameNotAllowed n)) := by
  intro o n
  refine ⟨fun h => ?_, fun v h => ?_, fun h => ?_⟩ <;> simp [visit, h]

/-- C3 (witness): the three cases of the amended claim at the concrete names
`sin` (callable), `pi` (constant) and `foo` (absent). -/
theorem spec_c3_witness :
    visit oracle0 (.name "sin") = .ok (.func "sin") ∧
    visit oracle0 (.name "pi") = .ok (.float piFloat) ∧
    visit oracle0 (.name "foo") = .error (.nameNotAllowed "foo") :=
  ⟨(spec_c3_theorem oracle0 "sin").1 rfl,
   (spec_c3_theorem oracle0 "pi").2.1 piFloat rfl,
   (spec_c3_theorem oracle0 "foo").2.2 rfl⟩

/-- C4 (counterexample): an assignment such as `"x=1"` is indeed rejected and
never executed, but it fails at parse time with the syntax error, not with
the restricted-operation error the claim names. -/
theorem spec_c4_counterexample :
    safe_eval oracle0 "x=1" = .error .syntaxError ∧
    safe_eval oracle0 "x=1" ≠ .error .restrictedCall ∧
    safe_eval oracle0 "x=1" ≠ .error .elementNotAllowed := by
  decide

/-- C4 (amended): non-whitelisted constructs are rejected without being
executed, with two classifications: attribute access and subscripting reach
the visitor and fail with the element-not-allowed rejection; a call whose
target is not a plain whitelisted name fails with the restricted-call
rejection before any argument is evaluated (so `"__import__(\x27os\x27)"` is
never executed); an assignment never parses at all and fails with the
syntax error. -/
theorem spec_c4_theorem :
    ∀ (o : Oracle) (e idx f : Ast) (fld : String) (args : List Ast) (n : String),
      visit o (.attr e fld) = .error .elementNotAllowed ∧
      visit o (.subscript e idx) = .error .elementNotAllowed ∧
      (MATH_FUNCS n = Option.none → visit o (.call (.name n) args) = .error .restrictedCall) ∧
      ((∀ s, f ≠ .name s) → visit o (.call f args) = .error .restrictedCall) ∧
      safe_eval o "__import__(\x27os\x27)" = .error .restrictedCall ∧
      safe_eval o "a.b" = .error .elementNotAllowed ∧
      safe_eval o "a[0]" = .error .elementNotAllowed ∧
      safe_eval o "x=1" = .error .syntaxError := by
  intro o e idx f fld args n
  refine ⟨rfl, rfl, fun h => ?_, fun h => ?_, rfl, rfl, rfl, rfl⟩
  · simp [visit, h]
  · cases f <;> first | rfl | exact absurd rfl (h _)

/-- C4 (witness): the hypothesis cases at concrete inputs — the call target
`__import__` is absent from the table, and a call whose callee is the
literal `1` is not a plain name. -/
theorem spec_c4_witness :
    visit oracle0 (.call (.name "__import__") [.strLit "os"]) = .error .restrictedCall ∧
    visit oracle0 (.call (.intLit 1) []) = .error .restrictedCall :=
  ⟨(spec_c4_theorem oracle0 (.intLit 0) (.intLit 0) (.intLit 1) "f" [.strLit "os"]
      "__import__").2.2.1 rfl,
   (spec_c4_theorem oracle0 (.intLit 0) (.intLit 0) (.intLit 1) "f" [] "x").2.2.2.1
      (fun _ h => Ast.noConfusion h)⟩

/-- C5: the evaluator has no angle-mode parameter and applies the sine
library function directly to the evaluated argument.  `"sin(90)"` passes the
raw number `90` (radians) to `math.sin` under every interpretation of the
library — no degree-to-radian conversion exists anywhere in the pipeline —
and `"sin(pi/2)"` likewise passes exactly `pi/2`.  (With the real
`math.sin`, the former computes `sin(90 rad) ≈ 0.894`, not the `1.0` the
claim requires for degree mode.) -/
theorem spec_c5_theorem :
    ∀ o : Oracle,
      safe_eval o "sin(90)" = Except.map Value.float (o.sin 90) ∧
      safe_eval o "sin(pi/2)" = Except.map Value.float (o.sin (piFloat / 2)) := by
  intro o
  constructor
  · have h0 : safe_eval o "sin(90)" = oracle1 o.sin (.int 90) := rfl
    rw [h0]
    cases h : o.sin 90 <;> simp [oracle1, numView, Int.cast_ofNat, Except.map, h]
  · have h0 : safe_eval o "sin(pi/2)" = oracle1 o.sin (.float (piFloat / 2)) := rfl
    rw [h0]
    cases h : o.sin (piFloat / 2) <;> simp [oracle1, numView, Except.map, h]

/-- C8 (counterexample): `"foo(1)"` does fail, but with the same
restricted-call rejection (`"Function calls are restricted"`) used for every
non-whitelisted call — not with the unknown-identifier classification (the
name-not-allowed raise), which the code reserves for bare identifiers. -/
theorem spec_c8_counterexample :
    safe_eval oracle0 "foo(1)" = .error .restrictedCall ∧
    safe_eval oracle0 "foo(1)" ≠ .error (.nameNotAllowed "foo") := by
  decide

/-- C8 (amended): a call whose target name is absent from the function table
fails with the restricted-call rejection (before evaluating any argument);
in particular `"foo(1)"` fails that way.  The unknown-identifier style
message (`"Name ... is not allowed"`) is produced only for bare
identifiers, not for calls. -/
theorem spec_c8_theorem :
    ∀ (o : Oracle) (args : List Ast) (n : String),
      (MATH_FUNCS n = Option.none → visit o (.call (.name n) args) = .error .restrictedCall) ∧
      safe_eval o "foo(1)" = .error .restrictedCall ∧
      visit o (.name "foo") = .error (.nameNotAllowed "foo") := by
  intro o args n
  refine ⟨fun h => ?_, rfl, rfl⟩
  simp [visit, h]

/-- C8 (witness): the hypothesis case at the concrete name `foo`, which is
absent from the table. -/
theorem spec_c8_witness :
    visit oracle0 (.call (.name "foo") [.intLit 1]) = .error .restrictedCall :=
  (spec_c8_theorem oracle0 [.intLit 1] "foo").1 rfl

set_option maxRecDepth 4000

/-- C9 (counterexample): the factorial reached by the evaluator imposes no
size bound: the extremely large input `300` — whose factorial exceeds
`10^308`, beyond every IEEE float64 — is not rejected; the evaluator
computes the exact result. -/
theorem spec_c9_counterexample :
    safe_eval oracle0 "300!" = .ok (.int (Nat.factorial 300)) ∧
    10 ^ 308 < Nat.factorial 300 := by
  decide

/-- C9 (amended): the factorial applied by the evaluator rejects every
negative integer input with a `ValueError` and every float input (fractional
or not) with a `TypeError`, but it has no upper bound: every nonnegative
integer is accepted and its exact factorial computed, at unbounded cost. -/
theorem spec_c9_theorem :
    ∀ (o : Oracle) (m : ℤ) (q : ℚ),
      (m < 0 → applyFunc o "factorial" [.int m] = .error .valueError) ∧
      (0 ≤ m → applyFunc o "factorial" [.int m] = .ok (.int (Nat.factorial m.toNat))) ∧
      applyFunc o "factorial" [.float q] = .error .typeError ∧
      (m < 0 → applyFunc o "fact" [.int m] = .error .valueError) ∧
      safe_eval o "(-3)!" = .error .valueError ∧
      safe_eval o "3.5!" = .error .typeError := by
  intro o m q
  have e1 : applyFunc o "factorial" [Value.int m] = factApply (.int m) := rfl
  have e2 : applyFunc o "fact" [Value.int m] = factApply (.int m) := rfl
  refine ⟨fun h => ?_, fun h => ?_, rfl, fun h => ?_, rfl, rfl⟩
  · rw [e1]; simp [factApply, if_pos h]
  · rw [e1]; simp [factApply, if_neg (not_lt.mpr h)]
  · rw [e2]; simp [factApply, if_pos h]

/-- C9 (witness): the hypothesis cases at the concrete inputs `-3` and `5`. -/
theorem spec_c9_witness :
    applyFunc oracle0 "factorial" [.int (-3)] = .error .valueError ∧
    applyFunc oracle0 "factorial" [.int 5] = .ok (.int 120) ∧
    applyFunc oracle0 "fact" [.int (-3)] = .error .valueError :=
  ⟨(spec_c9_theorem oracle0 (-3) 0).1 (by decide),
   (spec_c9_theorem oracle0 5 0).2.1 (by decide),
   (spec_c9_theorem oracle0 (-3) 0).2.2.2.1 (by decide)⟩

/-- C10: the constant branch of the visitor returns its literal value
verbatim, so syntactically valid inputs exist whose result is neither a
number nor an error: the string literal `"\x27abc\x27"` evaluates to the
string `abc` and the literal `"True"` evaluates to the boolean `true`. -/
theorem spec_c10_theorem :
    ∀ (o : Oracle) (s : String) (b : Bool),
      visit o (.strLit s) = .ok (.str s) ∧
      visit o (.boolLit b) = .ok (.bool b) ∧
      safe_eval o "\x27abc\x27" = .ok (.str "abc") ∧
      safe_eval o "True" = .ok (.bool true) :=
  fun _ _ _ => ⟨rfl, rfl, rfl, rfl⟩

/-- C7: for every well-formed arithmetic expression built from number
literals, the binary operators, unary sign and parentheses, evaluation of its
concrete syntax agrees with the standard operator-precedence reading: the
pipeline maps the minimally parenthesised printing of any expression tree to
the evaluation of exactly that tree (so precedence, left associativity of
`+ - * / % //`, and right associativity of `**` all hold), and in particular
`"2+3*4"` — the printing of `2 + (3*4)` — evaluates to `14`, `"(2+3)*4"` to
`20`, and `"2**3**2"` — the printing of `2**(3**2)` — to `512`. -/
theorem spec_c7_theorem :
    (∀ (o : Oracle) (e : AExp), safe_eval o (printAExp e) = visit o (astOf e)) ∧
    printAExp (.add (.num 2) (.mul (.num 3) (.num 4))) = "2+3*4" ∧
    printAExp (.mul (.add (.num 2) (.num 3)) (.num 4)) = "(2+3)*4" ∧
    printAExp (.pow (.num 2) (.pow (.num 3) (.num 2))) = "2**3**2" ∧
    (∀ o : Oracle,
      safe_eval o "2+3*4" = .ok (.int 14) ∧
      safe_eval o "(2+3)*4" = .ok (.int 20) ∧
      safe_eval o "2**3**2" = .ok (.int 512)) :=
  ⟨safe_eval_print, by decide, by decide, by decide, fun _ => ⟨rfl, rfl, rfl⟩⟩

/-- C6: the desugaring pass is a total function (it is defined by structural
recursion over the input, so it terminates and never fails), and for every
input string its output contains no `!` and no `^` character: every `^` is
replaced by `**` before the loop, every `!` is consumed by a rewrite, and
the injected text `factorial(`, `)` contains neither character. -/
theorem spec_c6_theorem :
    ∀ s : String, ((desugar s).data.all fun c => (c != '!') && (c != '^')) = true := by
  intro s
  rw [List.all_eq_true]
  intro c hc
  have h := desugar_char_ok hc
  simp [h.1, h.2]

end Scientific
